import Mathlib

/-!
QUaServer: wrapper data types (`src/wrapper/quacustomdatatypes.h`).

A shallow embedding of the value types and of the deferred-execution helper
`QUaSignaler` declared in `quacustomdatatypes.h`, with the properties proved
about them. The definitions come first, the lemmas and theorems after them.
-/

namespace QUaServer

/-! ## Definitions -/

/-! ### QUaSignaler (lines 449-499 of the header) -/

/-- What a `std::function<void(void)>` stored in `m_funcs` does, as far as the
signaler can observe it: it makes a sequence of `execLater` calls on the
signaler and then either returns (`ret`) or throws (`raise`).
`execLater label func k` calls `execLater` with the callback `(label, func)`
and goes on as `k`. -/
inductive Body where
  | ret : Body
  | raise : Body
  | execLater (label : Nat) (func : Body) (k : Body) : Body
deriving DecidableEq

/-- An element of `QQueue<std::function<void(void)>>`: a body and a label
that names it in the histories below. -/
structure Callback where
  label : Nat
  body : Body
deriving DecidableEq

/-- State of one `QUaSignaler` and of what surrounds it.
`m_processing` and `m_funcs` are the two data members. `posted` counts the
`sendEvent` emissions that the `Qt::QueuedConnection` made in the constructor
has put on the event loop and that have not been delivered to `on_sendEvent`
yet. `invoked` and `enqueued` are histories (oldest first) of the labels of
the callbacks invoked by `on_sendEvent` and of those passed to `execLater`. -/
structure QUaSignaler where
  m_processing : Bool
  m_funcs : List Callback
  posted : Nat
  invoked : List Nat
  enqueued : List Nat
deriving DecidableEq

/-- The constructor `QUaSignaler(QObject *parent)`: `m_processing = false`,
the queue is default-constructed (empty), nothing has been emitted. -/
def QUaSignaler.new : QUaSignaler :=
  { m_processing := false, m_funcs := [], posted := 0, invoked := [], enqueued := [] }

/-- The accessor `processing()`. -/
def processing (s : QUaSignaler) : Bool := s.m_processing

/-- The method `execLater(func)`: enqueue, return if `m_processing`, else set
`m_processing` and emit `sendEvent` (queued: one more posted event). -/
def execLater (func : Callback) (s : QUaSignaler) : QUaSignaler :=
  let s1 := { s with m_funcs := s.m_funcs ++ [func], enqueued := s.enqueued ++ [func.label] }
  if s1.m_processing then s1
  else { s1 with m_processing := true, posted := s1.posted + 1 }

/-- The callbacks a body passes to `execLater`, in call order. -/
def Body.calls : Body → List Callback
  | .ret => []
  | .raise => []
  | .execLater l f k => ⟨l, f⟩ :: k.calls

/-- Whether running the body ends in a throw. -/
def Body.raises : Body → Bool
  | .ret => false
  | .raise => true
  | .execLater _ _ k => k.raises

/-- Whether neither the body nor any callback it (transitively) enqueues
throws. -/
def Body.noRaise : Body → Bool
  | .ret => true
  | .raise => false
  | .execLater _ f k => f.noRaise && k.noRaise

/-- Number of callbacks a body gives rise to, itself included. -/
def Body.size : Body → Nat
  | .ret => 1
  | .raise => 1
  | .execLater _ f k => f.size + k.size

/-- Running a body on the signaler: the final state and whether it threw. -/
def Body.exec : Body → QUaSignaler → QUaSignaler × Bool
  | .ret, s => (s, false)
  | .raise, s => (s, true)
  | .execLater l f k, s => k.exec (QUaServer.execLater ⟨l, f⟩ s)

/-- How a call of the slot `on_sendEvent` ends: it returns, an exception of
the invoked callback propagates out of it, or `Q_ASSERT(m_processing)`
fails. -/
inductive Outcome where
  | returned (s : QUaSignaler) : Outcome
  | threw (s : QUaSignaler) : Outcome
  | assertFailed : Outcome
deriving DecidableEq

/-- The slot `on_sendEvent()`: assert `m_processing`; on an empty queue
clear `m_processing` and return; else dequeue the front callback, invoke it
and emit `sendEvent` again. A throw of the callback leaves the slot before
the emit. -/
def on_sendEvent (s : QUaSignaler) : Outcome :=
  if s.m_processing = false then .assertFailed
  else
    match s.m_funcs with
    | [] => .returned { s with m_processing := false }
    | f :: rest =>
      let s1 := { s with m_funcs := rest, invoked := s.invoked ++ [f.label] }
      match f.body.exec s1 with
      | (s2, true) => .threw s2
      | (s2, false) => .returned { s2 with posted := s2.posted + 1 }

/-- The event loop delivers one posted `sendEvent` to the slot; `none` when
no event is posted. -/
def deliver (s : QUaSignaler) : Option Outcome :=
  if s.posted = 0 then none
  else some (on_sendEvent { s with posted := s.posted - 1 })

/-- What happens to a signaler between two returns to the event loop: code
outside any callback calls `execLater`, or the loop delivers a posted
`sendEvent` (one drain step). -/
inductive Event where
  | call (func : Callback) : Event
  | drain : Event
deriving DecidableEq

/-- One event. A drain step is possible only when a `sendEvent` is posted;
an exception leaving the slot goes to the owner of the event loop and the
signaler stays as the slot left it; a failed assertion ends the run. -/
def step : Event → QUaSignaler → Option QUaSignaler
  | .call f, s => some (execLater f s)
  | .drain, s =>
    match deliver s with
    | some (.returned t) => some t
    | some (.threw t) => some t
    | some .assertFailed => none
    | none => none

/-- A sequence of events, in order. -/
def run : List Event → QUaSignaler → Option QUaSignaler
  | [], s => some s
  | e :: es, s =>
    match step e s with
    | some t => run es t
    | none => none

/-- An event whose callback, and everything the callback enqueues, does not
throw. -/
def Event.safe : Event → Bool
  | .call f => f.body.noRaise
  | .drain => true

/-- Total number of callbacks a queue gives rise to. -/
def weight : List Callback → Nat
  | [] => 0
  | f :: fs => f.body.size + weight fs

/-- Labels of the queued callbacks, front first. -/
def labels (q : List Callback) : List Nat := q.map Callback.label

/-- The state in which the invoked front callback `f` leaves the signaler,
before the slot emits again. -/
def afterCallback (s : QUaSignaler) (f : Callback) (rest : List Callback) : QUaSignaler :=
  { s with m_funcs := rest ++ f.body.calls,
           invoked := s.invoked ++ [f.label],
           enqueued := s.enqueued ++ labels f.body.calls }

/-- Invoked history followed by the queue is the enqueue history. -/
def Fifo (s : QUaSignaler) : Prop := s.invoked ++ labels s.m_funcs = s.enqueued

/-- An idle signaler has an empty queue. -/
def IdleEmpty (s : QUaSignaler) : Prop := s.m_processing = false → s.m_funcs = []

/-- At most one drain step is posted, exactly when `m_processing` is set, and
no queued callback throws. -/
def Single (s : QUaSignaler) : Prop :=
  s.posted ≤ 1 ∧ (s.m_processing = true ↔ s.posted = 1) ∧
    ∀ c ∈ s.m_funcs, c.body.noRaise = true

/-- Drain steps still needed to bring the signaler back to idle. -/
def drainsLeft (s : QUaSignaler) : Nat :=
  if s.m_processing then weight s.m_funcs + 1 else 0

/-- The callbacks passed to `execLater` from outside by a sequence of events. -/
def calledFuncs : List Event → List Callback
  | [] => []
  | .call f :: es => f :: calledFuncs es
  | .drain :: es => calledFuncs es

/-- Three callbacks enqueued from outside; the first one enqueues a fourth
while it runs. -/
def fifoScenario : List Event :=
  [.call ⟨1, .execLater 4 .ret .ret⟩, .call ⟨2, .ret⟩, .call ⟨3, .ret⟩]

/-- A failing callback and one behind it are enqueued, a drain step runs the
failing one, then a third callback is enqueued. -/
def failScenario : List Event :=
  [.call ⟨9, .raise⟩, .call ⟨2, .ret⟩, .drain, .call ⟨3, .ret⟩]

/-! ### UA_NodeId as a hash key (lines 44-58) -/

/-- The `enum UA_NodeIdType` of open62541, the tag of the identifier union. -/
inductive UA_NodeIdType where
  | UA_NODEIDTYPE_NUMERIC
  | UA_NODEIDTYPE_STRING
  | UA_NODEIDTYPE_GUID
  | UA_NODEIDTYPE_BYTESTRING
deriving DecidableEq

/-- Integer values of the enumerators (0, 3, 4, 5), as hashed by `qHash`. -/
def UA_NodeIdType.toNat : UA_NodeIdType → Nat
  | .UA_NODEIDTYPE_NUMERIC => 0
  | .UA_NODEIDTYPE_STRING => 3
  | .UA_NODEIDTYPE_GUID => 4
  | .UA_NODEIDTYPE_BYTESTRING => 5

/-- A `UA_String`: its `length` bytes of `data`. -/
abbrev UA_String := List Nat

/-- A `UA_ByteString` (a typedef of `UA_String`). -/
abbrev UA_ByteString := List Nat

/-- A `UA_Guid`: `data1` (32 bit), `data2`, `data3` (16 bit), `data4` (8 bytes). -/
structure UA_Guid where
  data1 : Nat
  data2 : Nat
  data3 : Nat
  data4 : List Nat
deriving DecidableEq

/-- The union `identifier` of a `UA_NodeId` with its active member. -/
inductive Identifier where
  | numeric (n : Nat)
  | string (s : UA_String)
  | guid (g : UA_Guid)
  | byteString (b : UA_ByteString)
deriving DecidableEq

/-- A `UA_NodeId`: `namespaceIndex` (16 bit) and the tagged identifier. -/
structure UA_NodeId where
  namespaceIndex : Nat
  identifier : Identifier
deriving DecidableEq

/-- The field `identifierType`: the tag of the active union member. -/
def UA_NodeId.identifierType (e : UA_NodeId) : UA_NodeIdType :=
  match e.identifier with
  | .numeric _ => .UA_NODEIDTYPE_NUMERIC
  | .string _ => .UA_NODEIDTYPE_STRING
  | .guid _ => .UA_NODEIDTYPE_GUID
  | .byteString _ => .UA_NODEIDTYPE_BYTESTRING

/-- Member access `identifier.numeric`; read only under the numeric tag. -/
def Identifier.getNumeric : Identifier → Nat
  | .numeric n => n
  | _ => 0

/-- Member access `identifier.string`; read only under the string tag. -/
def Identifier.getString : Identifier → UA_String
  | .string s => s
  | _ => []

/-- Member access `identifier.guid`; read only under the GUID tag. -/
def Identifier.getGuid : Identifier → UA_Guid
  | .guid g => g
  | _ => ⟨0, 0, 0, []⟩

/-- Member access `identifier.byteString`; read only under the byte-string tag. -/
def Identifier.getByteString : Identifier → UA_ByteString
  | .byteString b => b
  | _ => []

/-- Modelled from the spec: `UA_String_equal` belongs to open62541 and is not
in this repository; strings compare by content (same length, same bytes). -/
def UA_String_equal (s1 s2 : UA_String) : Bool :=
  s1.length == s2.length && s1 == s2

/-- Modelled from the spec: `UA_Guid_equal` belongs to open62541 and is not
in this repository; GUIDs compare by content, field by field. -/
def UA_Guid_equal (g1 g2 : UA_Guid) : Bool :=
  g1.data1 == g2.data1 && g1.data2 == g2.data2 && g1.data3 == g2.data3 &&
    g1.data4 == g2.data4

/-- Modelled from the spec: `UA_ByteString_equal` belongs to open62541 and is
not in this repository; byte strings compare by content. -/
def UA_ByteString_equal (b1 b2 : UA_ByteString) : Bool :=
  UA_String_equal b1 b2

/-- The `operator==(const UA_NodeId&, const UA_NodeId&)` of the header. -/
def UA_NodeId.operator_eq (e1 e2 : UA_NodeId) : Bool :=
  e1.namespaceIndex == e2.namespaceIndex
    && e1.identifierType == e2.identifierType
    && (if e1.identifierType = .UA_NODEIDTYPE_NUMERIC then
          e1.identifier.getNumeric == e2.identifier.getNumeric
        else if e1.identifierType = .UA_NODEIDTYPE_STRING then
          UA_String_equal e1.identifier.getString e2.identifier.getString
        else if e1.identifierType = .UA_NODEIDTYPE_GUID then
          UA_Guid_equal e1.identifier.getGuid e2.identifier.getGuid
        else if e1.identifierType = .UA_NODEIDTYPE_BYTESTRING then
          UA_ByteString_equal e1.identifier.getByteString e2.identifier.getByteString
        else false)

/-- The hash functions the header calls and does not define: Qt's `qHash`
overloads for `quint16`, for the enum (as `int`), for `quint32` and for
`QString`, and open62541's `UA_NodeId_hash`, a digest of the identifier's
content. -/
structure HashFns where
  qHash_ushort : Nat → Nat → Nat
  qHash_int : Nat → Nat → Nat
  qHash_uint : Nat → Nat → Nat
  qHash_QString : List Char → Nat → Nat
  UA_NodeId_hash : UA_NodeId → Nat

/-- The `qHash(const UA_NodeId&, uint)` of the header. -/
def UA_NodeId.qHash (H : HashFns) (key : UA_NodeId) (seed : Nat) : Nat :=
  H.qHash_ushort key.namespaceIndex seed ^^^ H.qHash_int key.identifierType.toNat seed ^^^
    (if key.identifierType = .UA_NODEIDTYPE_NUMERIC then
       H.qHash_uint key.identifier.getNumeric seed
     else H.UA_NodeId_hash key)

/-- Qt 5 integer hashes (`key ^ seed`) with simple stand-ins for the string
hash and for the digest, to evaluate `qHash` on examples. -/
def sampleHashFns : HashFns where
  qHash_ushort := fun k seed => k ^^^ seed
  qHash_int := fun k seed => k ^^^ seed
  qHash_uint := fun k seed => k ^^^ seed
  qHash_QString := fun str seed => (str.foldl (fun h c => (31 * h + c.toNat) % 4294967296) seed)
  UA_NodeId_hash := fun n =>
    match n.identifier with
    | .numeric v => v
    | .string str => str.foldl (fun h b => (31 * h + b) % 4294967296) n.namespaceIndex
    | .guid g => (g.data4.foldl (fun h b => (31 * h + b) % 4294967296)
        (g.data1 + g.data2 + g.data3 + n.namespaceIndex)) % 4294967296
    | .byteString str => str.foldl (fun h b => (31 * h + b) % 4294967296) n.namespaceIndex

/-! ### QUaQualifiedName (lines 340-385) -/

/-- A `QString`, as its sequence of characters. -/
abbrev QString := List Char

/-- The class `QUaQualifiedName`: `m_namespace` (`quint16`) and `m_name`. -/
structure QUaQualifiedName where
  m_namespace : Nat
  m_name : QString
deriving DecidableEq

/-- Decimal numeral of a number, most significant digit first. -/
def decimal (n : Nat) : QString := Nat.toDigits 10 n

/-- Value of a string of decimal digits. -/
def digitsValue (str : QString) : Nat :=
  str.foldl (fun acc c => acc * 10 + (c.toNat - 48)) 0

/-- A numeric namespace field: a non-empty string of decimal digits whose
value fits the 16-bit `m_namespace`. -/
def parseUShort (str : QString) : Option Nat :=
  if str ≠ [] ∧ str.all Char.isDigit ∧ digitsValue str < 65536 then some (digitsValue str)
  else none

/-- Split at the first `:`, which is dropped; `none` when there is none. -/
def splitFirstColon : QString → Option (QString × QString)
  | [] => none
  | c :: cs =>
    if c = ':' then some ([], cs)
    else (splitFirstColon cs).map (fun pr => (c :: pr.1, pr.2))

/-- Modelled from the spec: `QUaQualifiedName::toXmlString` is defined in
`quacustomdatatypes.cpp`, which is missing. The canonical string form is
`"<namespaceIndex>:<name>"` when namespaceIndex > 0, else the bare name. -/
def toXmlString (q : QUaQualifiedName) : QString :=
  if q.m_namespace > 0 then decimal q.m_namespace ++ ':' :: q.m_name else q.m_name

/-- Modelled from the spec: `QUaQualifiedName::fromXmlString` is defined in
`quacustomdatatypes.cpp`, which is missing. Parsing splits on the first `:`;
absence of `:` implies namespaceIndex 0; a non-numeric part before the `:`
falls back to the whole string as the name with namespaceIndex 0. -/
def fromXmlString (strXmlQualName : QString) : QUaQualifiedName :=
  match splitFirstColon strXmlQualName with
  | none => ⟨0, strXmlQualName⟩
  | some (ns, name) =>
    match parseUShort ns with
    | some n => ⟨n, name⟩
    | none => ⟨0, strXmlQualName⟩

/-- Whether a name starts with a numeric field followed by `:`. -/
def hasNumericPrefix (name : QString) : Bool :=
  match splitFirstColon name with
  | none => false
  | some (ns, _) => (parseUShort ns).isSome

/-- The static helper `QUaQualifiedName::reduce` of the header: each browse
name's `toXmlString()` followed by `"/"`, accumulated in `strRet`. -/
def reduce (browsePath : List QUaQualifiedName) : QString :=
  browsePath.foldl (fun strRet browseName => strRet ++ (toXmlString browseName ++ ['/'])) []

/-! ### QUaWriteMask and QUaAccessLevel (lines 199-287) -/

/-- Reading a one-bit field at position `k` of a storage word. -/
def readBit (w k : Nat) : Bool := w.testBit k

/-- Assigning a `bool` to a one-bit field at position `k` of a storage word
of `width` bits: the bit is cleared and the value is stored in its place. -/
def writeBit (width w k : Nat) (b : Bool) : Nat :=
  (w &&& ((2 ^ width - 1) ^^^ (1 <<< k))) ||| (b.toNat <<< k)

/-- The union `QUaWriteMask`, as its 32-bit storage; `intValue` is the whole
word and the members of `bits` are one-bit fields of it. -/
structure QUaWriteMask where
  intValue : Nat
deriving DecidableEq

/-- The members of `QUaWriteMask::bit_map`, in declaration order. -/
inductive QUaWriteMask.bit_map where
  | bAccessLevel
  | bArrrayDimensions
  | bBrowseName
  | bContainsNoLoops
  | bDataType
  | bDescription
  | bDisplayName
  | bEventNotifier
  | bExecutable
  | bHistorizing
  | bInverseName
  | bIsAbstract
  | bMinimumSamplingInterval
  | bNodeClass
  | bNodeId
  | bSymmetric
  | bUserAccessLevel
  | bUserExecutable
  | bUserWriteMask
  | bValueRank
  | bWriteMask
  | bValueForVariableType
deriving DecidableEq

/-- Position of a member of `QUaWriteMask::bit_map` in the storage word: the
members are allocated in declaration order from the least significant bit,
as the `UA_WRITEMASK_*` constant named beside each member says. -/
def QUaWriteMask.bit_map.pos : QUaWriteMask.bit_map → Nat
  | .bAccessLevel => 0
  | .bArrrayDimensions => 1
  | .bBrowseName => 2
  | .bContainsNoLoops => 3
  | .bDataType => 4
  | .bDescription => 5
  | .bDisplayName => 6
  | .bEventNotifier => 7
  | .bExecutable => 8
  | .bHistorizing => 9
  | .bInverseName => 10
  | .bIsAbstract => 11
  | .bMinimumSamplingInterval => 12
  | .bNodeClass => 13
  | .bNodeId => 14
  | .bSymmetric => 15
  | .bUserAccessLevel => 16
  | .bUserExecutable => 17
  | .bUserWriteMask => 18
  | .bValueRank => 19
  | .bWriteMask => 20
  | .bValueForVariableType => 21

/-- Reading the member `bits.f`. -/
def QUaWriteMask.bits (m : QUaWriteMask) (f : QUaWriteMask.bit_map) : Bool :=
  readBit m.intValue f.pos

/-- The assignment `bits.f = b`. -/
def QUaWriteMask.setBits (m : QUaWriteMask) (f : QUaWriteMask.bit_map) (b : Bool) :
    QUaWriteMask :=
  ⟨writeBit 32 m.intValue f.pos b⟩

/-- The default constructor `QUaWriteMask()`: 22 assignments of `true`, made
on the storage `mem` that the object occupies (nothing else initialises
it). -/
def QUaWriteMask.new (mem : QUaWriteMask) : QUaWriteMask :=
  mem
    |>.setBits .bAccessLevel true
    |>.setBits .bArrrayDimensions true
    |>.setBits .bBrowseName true
    |>.setBits .bContainsNoLoops true
    |>.setBits .bDataType true
    |>.setBits .bDescription true
    |>.setBits .bDisplayName true
    |>.setBits .bEventNotifier true
    |>.setBits .bExecutable true
    |>.setBits .bHistorizing true
    |>.setBits .bInverseName true
    |>.setBits .bIsAbstract true
    |>.setBits .bMinimumSamplingInterval true
    |>.setBits .bNodeClass true
    |>.setBits .bNodeId true
    |>.setBits .bSymmetric true
    |>.setBits .bUserAccessLevel true
    |>.setBits .bUserExecutable true
    |>.setBits .bUserWriteMask true
    |>.setBits .bValueRank true
    |>.setBits .bWriteMask true
    |>.setBits .bValueForVariableType true

/-- The constructor `QUaWriteMask(const quint32& value)`: `intValue = value`. -/
def QUaWriteMask.ofValue (value : Nat) : QUaWriteMask :=
  ⟨value % 2 ^ 32⟩

/-- The union `QUaAccessLevel`, as its 8-bit storage. -/
structure QUaAccessLevel where
  intValue : Nat
deriving DecidableEq

/-- The members of `QUaAccessLevel::bit_map`, in declaration order. -/
inductive QUaAccessLevel.bit_map where
  | bRead
  | bWrite
  | bHistoryRead
  | bHistoryWrite
  | bSemanticChange
  | bStatusWrite
  | bTimestampWrite
deriving DecidableEq

/-- Position of a member of `QUaAccessLevel::bit_map` in the storage byte,
in declaration order from the least significant bit, as the
`UA_ACCESSLEVELMASK_*` constant named beside each member says. -/
def QUaAccessLevel.bit_map.pos : QUaAccessLevel.bit_map → Nat
  | .bRead => 0
  | .bWrite => 1
  | .bHistoryRead => 2
  | .bHistoryWrite => 3
  | .bSemanticChange => 4
  | .bStatusWrite => 5
  | .bTimestampWrite => 6

/-- Reading the member `bits.f`. -/
def QUaAccessLevel.bits (m : QUaAccessLevel) (f : QUaAccessLevel.bit_map) : Bool :=
  readBit m.intValue f.pos

/-- The assignment `bits.f = b`. -/
def QUaAccessLevel.setBits (m : QUaAccessLevel) (f : QUaAccessLevel.bit_map) (b : Bool) :
    QUaAccessLevel :=
  ⟨writeBit 8 m.intValue f.pos b⟩

/-- The default constructor `QUaAccessLevel()`: `bRead = true` and the six
other members `false`, on the storage `mem` that the object occupies. -/
def QUaAccessLevel.new (mem : QUaAccessLevel) : QUaAccessLevel :=
  mem
    |>.setBits .bRead true
    |>.setBits .bWrite false
    |>.setBits .bHistoryRead false
    |>.setBits .bHistoryWrite false
    |>.setBits .bSemanticChange false
    |>.setBits .bStatusWrite false
    |>.setBits .bTimestampWrite false

/-- The constructor `QUaAccessLevel(const quint8& value)`: `intValue = value`. -/
def QUaAccessLevel.ofValue (value : Nat) : QUaAccessLevel :=
  ⟨value % 2 ^ 8⟩

/-- The 22 named flags of `QUaWriteMask` in the order AccessLevel,
ArrayDimensions, BrowseName, ..., WriteMask, ValueForVariableType. -/
def writeMaskFlags : List QUaWriteMask.bit_map :=
  [.bAccessLevel,
   .bArrrayDimensions,
   .bBrowseName,
   .bContainsNoLoops,
   .bDataType,
   .bDescription,
   .bDisplayName,
   .bEventNotifier,
   .bExecutable,
   .bHistorizing,
   .bInverseName,
   .bIsAbstract,
   .bMinimumSamplingInterval,
   .bNodeClass,
   .bNodeId,
   .bSymmetric,
   .bUserAccessLevel,
   .bUserExecutable,
   .bUserWriteMask,
   .bValueRank,
   .bWriteMask,
   .bValueForVariableType]

/-- The 7 named flags of `QUaAccessLevel` in the order Read, Write,
HistoryRead, HistoryWrite, SemanticChange, StatusWrite, TimestampWrite. -/
def accessLevelFlags : List QUaAccessLevel.bit_map :=
  [.bRead, .bWrite, .bHistoryRead, .bHistoryWrite,
   .bSemanticChange, .bStatusWrite, .bTimestampWrite]

/-! ### QUaReferenceType and QUaChangeStructureDataType (lines 60-84, 396-425) -/

/-- Lexicographic comparison of two strings by the code points of `key c`:
negative, zero or positive, as `QString::compare` returns. -/
def compareBy (key : Char → Char) : QString → QString → Int
  | [], [] => 0
  | [], _ :: _ => -1
  | _ :: _, [] => 1
  | x :: xs, y :: ys =>
    if key x = key y then compareBy key xs ys
    else ((key x).toNat : Int) - ((key y).toNat : Int)

/-- The call `s1.compare(s2, Qt::CaseSensitive)`. -/
def compareCaseSensitive (s1 s2 : QString) : Int := compareBy id s1 s2

/-- The call `s1.compare(s2, Qt::CaseInsensitive)`: the characters are
compared after case folding; `toCaseFolded` is Qt's folding of a character,
which the header does not define. -/
def compareCaseInsensitive (toCaseFolded : Char → Char) (s1 s2 : QString) : Int :=
  compareBy toCaseFolded s1 s2

/-- Two texts that are equal ignoring letter case: equal after folding. -/
def equalIgnoringCase (toCaseFolded : Char → Char) (s1 s2 : QString) : Prop :=
  s1.map toCaseFolded = s2.map toCaseFolded

/-- The struct `QUaReferenceType`. -/
structure QUaReferenceType where
  strForwardName : QString
  strInverseName : QString
deriving DecidableEq

/-- The `operator==(const QUaReferenceType&, const QUaReferenceType&)`. -/
def QUaReferenceType.operator_eq (e1 e2 : QUaReferenceType) : Bool :=
  compareCaseSensitive e1.strForwardName e2.strForwardName == 0
    && compareCaseSensitive e1.strInverseName e2.strInverseName == 0

/-- The `operator!=(const QUaReferenceType&, const QUaReferenceType&)`. -/
def QUaReferenceType.operator_ne (e1 e2 : QUaReferenceType) : Bool :=
  !(QUaReferenceType.operator_eq e1 e2)

/-- The `qHash(const QUaReferenceType&, uint)` of the header. -/
def QUaReferenceType.qHash (H : HashFns) (key : QUaReferenceType) (seed : Nat) : Nat :=
  H.qHash_QString key.strForwardName seed ^^^ H.qHash_QString key.strInverseName seed

/-- The enum `QUaChangeStructureDataType::Verb`. -/
inductive Verb where
  | NodeAdded
  | NodeDeleted
  | ReferenceAdded
  | ReferenceDeleted
  | DataTypeChanged
deriving DecidableEq

/-- Values of the `Verb` enumerators: 1, 2, 4, 8, 16. -/
def Verb.toNat : Verb → Nat
  | .NodeAdded => 1
  | .NodeDeleted => 2
  | .ReferenceAdded => 4
  | .ReferenceDeleted => 8
  | .DataTypeChanged => 16

/-- The struct `QUaChangeStructureDataType`; `m_uiVerb` is a `uchar`. -/
structure QUaChangeStructureDataType where
  m_strNodeIdAffected : QString
  m_strNodeIdAffectedType : QString
  m_uiVerb : Nat
deriving DecidableEq

/-- The `operator==(const QUaChangeStructureDataType&, const
QUaChangeStructureDataType&)` of the header. -/
def QUaChangeStructureDataType.operator_eq (toCaseFolded : Char → Char)
    (lhs rhs : QUaChangeStructureDataType) : Bool :=
  compareCaseInsensitive toCaseFolded lhs.m_strNodeIdAffected rhs.m_strNodeIdAffected == 0
    && compareCaseInsensitive toCaseFolded lhs.m_strNodeIdAffectedType
        rhs.m_strNodeIdAffectedType == 0
    && lhs.m_uiVerb == rhs.m_uiVerb

/-! ### QUa::Type and QUaDataType (lines 103-131, 289-305) -/

/-- The enum `QUa::Type`, enumerators in declaration order. -/
inductive QUa_Type where
  | Bool
  | Char
  | SChar
  | UChar
  | Short
  | UShort
  | Int
  | UInt
  | Long
  | LongLong
  | ULong
  | ULongLong
  | Float
  | Double
  | QString
  | QDateTime
  | QUuid
  | QByteArray
  | UnknownType
  | LocalizedText
  | TimeZoneDataType
  | NodeId
  | ChangeStructureDatatype
  | Image
  | StatusCode
deriving DecidableEq

/-- The enumerators of `QUa::Type` in declaration order. -/
def allTypes : List QUa_Type :=
  [.Bool, .Char, .SChar, .UChar, .Short,
   .UShort, .Int, .UInt, .Long, .LongLong,
   .ULong, .ULongLong, .Float, .Double, .QString,
   .QDateTime, .QUuid, .QByteArray, .UnknownType, .LocalizedText,
   .TimeZoneDataType, .NodeId, .ChangeStructureDatatype, .Image, .StatusCode]

/-- Value of an enumerator of `QUa::Type`: the `QMetaType::Type` value of the
same name (Qt 5, where `QMetaType::User` is 1024), and `QMetaType::User` plus
the `METATYPE_OFFSET_*` of the header for the six own kinds. -/
def typeValue : QUa_Type → Nat
  | .Bool => 1
  | .Char => 34
  | .SChar => 40
  | .UChar => 37
  | .Short => 33
  | .UShort => 36
  | .Int => 2
  | .UInt => 3
  | .Long => 32
  | .LongLong => 4
  | .ULong => 35
  | .ULongLong => 5
  | .Float => 38
  | .Double => 6
  | .QString => 10
  | .QDateTime => 16
  | .QUuid => 30
  | .QByteArray => 12
  | .UnknownType => 0
  | .LocalizedText => 1025
  | .TimeZoneDataType => 1026
  | .NodeId => 1027
  | .ChangeStructureDatatype => 1028
  | .Image => 1029
  | .StatusCode => 1030

/-- Key of an enumerator of `QUa::Type` in the meta-enum that `Q_ENUM_NS(Type)`
generates: the enumerator's name. -/
def typeKey : QUa_Type → QString
  | .Bool => ['B', 'o', 'o', 'l']
  | .Char => ['C', 'h', 'a', 'r']
  | .SChar => ['S', 'C', 'h', 'a', 'r']
  | .UChar => ['U', 'C', 'h', 'a', 'r']
  | .Short => ['S', 'h', 'o', 'r', 't']
  | .UShort => ['U', 'S', 'h', 'o', 'r', 't']
  | .Int => ['I', 'n', 't']
  | .UInt => ['U', 'I', 'n', 't']
  | .Long => ['L', 'o', 'n', 'g']
  | .LongLong => ['L', 'o', 'n', 'g', 'L', 'o', 'n', 'g']
  | .ULong => ['U', 'L', 'o', 'n', 'g']
  | .ULongLong => ['U', 'L', 'o', 'n', 'g', 'L', 'o', 'n', 'g']
  | .Float => ['F', 'l', 'o', 'a', 't']
  | .Double => ['D', 'o', 'u', 'b', 'l', 'e']
  | .QString => ['Q', 'S', 't', 'r', 'i', 'n', 'g']
  | .QDateTime => ['Q', 'D', 'a', 't', 'e', 'T', 'i', 'm', 'e']
  | .QUuid => ['Q', 'U', 'u', 'i', 'd']
  | .QByteArray => ['Q', 'B', 'y', 't', 'e', 'A', 'r', 'r', 'a', 'y']
  | .UnknownType => ['U', 'n', 'k', 'n', 'o', 'w', 'n', 'T', 'y', 'p', 'e']
  | .LocalizedText => ['L', 'o', 'c', 'a', 'l', 'i', 'z', 'e', 'd', 'T', 'e', 'x', 't']
  | .TimeZoneDataType => ['T', 'i', 'm', 'e', 'Z', 'o', 'n', 'e', 'D', 'a', 't', 'a', 'T', 'y', 'p', 'e']
  | .NodeId => ['N', 'o', 'd', 'e', 'I', 'd']
  | .ChangeStructureDatatype => ['C', 'h', 'a', 'n', 'g', 'e', 'S', 't', 'r', 'u', 'c', 't', 'u', 'r', 'e', 'D', 'a', 't', 'a', 't', 'y', 'p', 'e']
  | .Image => ['I', 'm', 'a', 'g', 'e']
  | .StatusCode => ['S', 't', 'a', 't', 'u', 's', 'C', 'o', 'd', 'e']

/-- The lookup `QMetaEnum::valueToKey`: the key of the first enumerator with
the value. -/
def valueToKey (value : Nat) : Option QString :=
  (allTypes.find? (fun t => typeValue t == value)).map typeKey

/-- The lookup `QMetaEnum::keyToValue`: the value of the first enumerator
with the key. -/
def keyToValue (key : QString) : Option Nat :=
  (allTypes.find? (fun t => typeKey t == key)).map typeValue

/-- The cast `static_cast<QUa::Type>(value)` of a value of the meta-enum. -/
def typeOfValue (value : Nat) : QUa_Type :=
  (allTypes.find? (fun t => typeValue t == value)).getD .UnknownType

/-- Modelled from the spec: the conversion of a `QUaDataType` to its name
(`operator QString`) is defined in `quacustomdatatypes.cpp`, which is
missing. Each kind has a canonical name string, the name of the kind in the
meta-enum. -/
def nameOf (k : QUa_Type) : QString :=
  (valueToKey (typeValue k)).getD []

/-- Modelled from the spec: the constructor `QUaDataType(const QString&)` is
defined in `quacustomdatatypes.cpp`, which is missing. A name resolves to the
kind of that name and an unrecognized name to the Unknown kind. -/
def kindOf (name : QString) : QUa_Type :=
  match keyToValue name with
  | some value => typeOfValue value
  | none => .UnknownType

/-! ### QUa::Status and the severity of a status code (lines 134-154) -/

/-- The conversion `static_cast<int>(x)` of a 32-bit unsigned value. -/
def static_cast_int (x : Nat) : Int :=
  if x % 2 ^ 32 < 2 ^ 31 then (x % 2 ^ 32 : Nat) else ((x % 2 ^ 32 : Nat) : Int) - 2 ^ 32

/-- The conversion of a `QUaStatus` back to the 32-bit `UA_StatusCode`. -/
def static_cast_uint (i : Int) : Nat := (i % 2 ^ 32).toNat

/-- The enumerator `QUa::Status::Good`, `static_cast<int>(UA_STATUSCODE_GOOD)`
with `UA_STATUSCODE_GOOD` being 0x00000000. -/
def Status_Good : Int := static_cast_int 0x00000000

/-- The enumerator `QUa::Status::Uncertain`, `static_cast<int>(0x40000000)`. -/
def Status_Uncertain : Int := static_cast_int 0x40000000

/-- The enumerator `QUa::Status::Bad`, `static_cast<int>(0x80000000)`. -/
def Status_Bad : Int := static_cast_int 0x80000000

/-- The three severity bands of a status code. -/
inductive Severity where
  | Good
  | Uncertain
  | Bad
deriving DecidableEq

/-- Modelled from the spec: no function of the header computes the severity
band. The band is read off the two most significant bits of the 32-bit code:
`00` is Good, `01` is Uncertain, `10` is Bad; the spec names no band for
`11`. -/
def severity (code : Nat) : Option Severity :=
  match code.testBit 31, code.testBit 30 with
  | false, false => some .Good
  | false, true => some .Uncertain
  | true, false => some .Bad
  | true, true => none

/-! ## Lemmas and theorems -/

/-! ### QUaSignaler: `execLater`, running a body, one drain step -/

theorem execLater_of_processing (c : Callback) (s : QUaSignaler)
    (h : s.m_processing = true) :
    execLater c s =
      { s with m_funcs := s.m_funcs ++ [c], enqueued := s.enqueued ++ [c.label] } := by
  simp [execLater, h]

theorem execLater_of_idle (c : Callback) (s : QUaSignaler)
    (h : s.m_processing = false) :
    execLater c s =
      { s with m_funcs := s.m_funcs ++ [c], enqueued := s.enqueued ++ [c.label],
               m_processing := true, posted := s.posted + 1 } := by
  simp [execLater, h]

theorem execLater_processing (c : Callback) (s : QUaSignaler) :
    (execLater c s).m_processing = true := by
  cases h : s.m_processing <;> simp [execLater, h]

theorem labels_append (a b : List Callback) : labels (a ++ b) = labels a ++ labels b := by
  simp [labels]

theorem weight_append (a b : List Callback) : weight (a ++ b) = weight a + weight b := by
  induction a with
  | nil => simp [weight]
  | cons f fs ih => simp [weight, ih, Nat.add_assoc]

theorem weight_calls (b : Body) : weight b.calls + 1 = b.size := by
  induction b with
  | ret => rfl
  | raise => rfl
  | execLater l f k _ ihk =>
    simp only [Body.calls, weight, Body.size]
    omega

theorem raises_of_noRaise (b : Body) (h : b.noRaise = true) : b.raises = false := by
  induction b with
  | ret => rfl
  | raise => simp [Body.noRaise] at h
  | execLater l f k _ ihk =>
    simp only [Body.noRaise, Bool.and_eq_true] at h
    simpa [Body.raises] using ihk h.2

theorem noRaise_calls (b : Body) (h : b.noRaise = true) :
    ∀ c ∈ b.calls, c.body.noRaise = true := by
  induction b with
  | ret => simp [Body.calls]
  | raise => simp [Body.calls]
  | execLater l f k _ ihk =>
    simp only [Body.noRaise, Bool.and_eq_true] at h
    intro c hc
    simp only [Body.calls, List.mem_cons] at hc
    rcases hc with rfl | hc
    · exact h.1
    · exact ihk h.2 c hc

/-- While `m_processing` is set, running a body appends its calls to the
queue and changes nothing else. -/
theorem exec_of_processing (b : Body) (s : QUaSignaler) (h : s.m_processing = true) :
    b.exec s =
      ({ s with m_funcs := s.m_funcs ++ b.calls,
                enqueued := s.enqueued ++ labels b.calls }, b.raises) := by
  induction b generalizing s with
  | ret => simp [Body.exec, Body.calls, Body.raises, labels]
  | raise => simp [Body.exec, Body.calls, Body.raises, labels]
  | execLater l f k _ ihk =>
    have hp : (execLater ⟨l, f⟩ s).m_processing = true := execLater_processing _ _
    rw [Body.exec, ihk _ hp, execLater_of_processing _ _ h]
    simp [Body.calls, Body.raises, labels]

theorem on_sendEvent_nil (s : QUaSignaler) (h : s.m_processing = true)
    (hq : s.m_funcs = []) :
    on_sendEvent s = .returned { s with m_processing := false } := by
  simp [on_sendEvent, h, hq]

theorem on_sendEvent_cons (s : QUaSignaler) (f : Callback) (rest : List Callback)
    (h : s.m_processing = true) (hq : s.m_funcs = f :: rest) :
    on_sendEvent s =
      if f.body.raises = true then .threw (afterCallback s f rest)
      else .returned { afterCallback s f rest with
                         posted := (afterCallback s f rest).posted + 1 } := by
  unfold on_sendEvent
  rw [if_neg (by simp [h]), hq]
  simp only
  rw [exec_of_processing f.body _ (by simpa using h)]
  cases hr : f.body.raises <;> simp [afterCallback]

/-- The three ways a drain step can go through: empty queue, front callback
throws, front callback returns. -/
theorem step_drain_cases (s t : QUaSignaler) (h : step .drain s = some t) :
    s.posted ≠ 0 ∧ s.m_processing = true ∧
    ((s.m_funcs = [] ∧ t = { s with posted := s.posted - 1, m_processing := false }) ∨
     (∃ f rest, s.m_funcs = f :: rest ∧ f.body.raises = true ∧
        t = afterCallback { s with posted := s.posted - 1 } f rest) ∨
     (∃ f rest, s.m_funcs = f :: rest ∧ f.body.raises = false ∧
        t = { afterCallback { s with posted := s.posted - 1 } f rest with
                posted := s.posted - 1 + 1 })) := by
  by_cases hpos : s.posted = 0
  · simp [step, deliver, hpos] at h
  · simp only [step, deliver, if_neg hpos] at h
    rcases Bool.eq_false_or_eq_true s.m_processing with hp | hp
    · refine ⟨hpos, hp, ?_⟩
      have hcases : s.m_funcs = [] ∨ ∃ f rest, s.m_funcs = f :: rest := by
        cases s.m_funcs with
        | nil => exact Or.inl rfl
        | cons f rest => exact Or.inr ⟨f, rest, rfl⟩
      rcases hcases with hq | ⟨f, rest, hq⟩
      · left
        rw [on_sendEvent_nil _ (by simpa using hp) (by simpa using hq)] at h
        simp only [Option.some.injEq] at h
        exact ⟨hq, h.symm⟩
      · right
        rw [on_sendEvent_cons _ f rest (by simpa using hp) (by simpa using hq)] at h
        rcases Bool.eq_false_or_eq_true f.body.raises with hr | hr
        · left
          simp only [hr, if_true, Option.some.injEq] at h
          exact ⟨f, rest, hq, hr, h.symm⟩
        · right
          simp only [hr, Bool.false_eq_true, if_false, Option.some.injEq] at h
          exact ⟨f, rest, hq, hr, by rw [← h]; rfl⟩
    · simp [on_sendEvent, hp] at h

theorem run_append (es1 es2 : List Event) (s : QUaSignaler) :
    run (es1 ++ es2) s = (run es1 s).bind (run es2) := by
  induction es1 generalizing s with
  | nil => rfl
  | cons e es ih =>
    simp only [List.cons_append, run]
    cases step e s with
    | none => rfl
    | some t => simpa using ih t

/-- A property kept by every step holds after every run. -/
theorem run_preserves (P : QUaSignaler → Prop)
    (hstep : ∀ e s t, P s → step e s = some t → P t)
    (evs : List Event) (s t : QUaSignaler) (hs : P s) (h : run evs s = some t) : P t := by
  induction evs generalizing s with
  | nil => simp only [run, Option.some.injEq] at h; exact h ▸ hs
  | cons e es ih =>
    simp only [run] at h
    cases hst : step e s with
    | none => simp [hst] at h
    | some u =>
      rw [hst] at h
      exact ih u (hstep e s u hs hst) h

/-! ### QUaSignaler: invariants -/

theorem fifo_step (e : Event) (s t : QUaSignaler) (hs : Fifo s) (h : step e s = some t) :
    Fifo t := by
  unfold Fifo at *
  cases e with
  | call f =>
    simp only [step, Option.some.injEq] at h
    subst h
    cases hp : s.m_processing <;>
      simp [execLater, hp, labels_append, labels, ← hs]
  | drain =>
    obtain ⟨_, _, h1 | ⟨f, rest, hq, _, rfl⟩ | ⟨f, rest, hq, _, rfl⟩⟩ := step_drain_cases s t h
    · obtain ⟨hq, rfl⟩ := h1
      simpa using hs
    · rw [hq] at hs
      simp [afterCallback, labels_append, labels, ← hs] at *
    · rw [hq] at hs
      simp [afterCallback, labels_append, labels, ← hs] at *

theorem idleEmpty_step (e : Event) (s t : QUaSignaler) (_hs : IdleEmpty s)
    (h : step e s = some t) : IdleEmpty t := by
  unfold IdleEmpty at *
  cases e with
  | call f =>
    simp only [step, Option.some.injEq] at h
    subst h
    intro hp
    rw [execLater_processing] at hp
    exact absurd hp (by simp)
  | drain =>
    obtain ⟨_, hp, h1 | ⟨f, rest, hq, _, rfl⟩ | ⟨f, rest, hq, _, rfl⟩⟩ := step_drain_cases s t h
    · obtain ⟨hq, rfl⟩ := h1
      intro _
      exact hq
    · intro hp2
      simp [afterCallback, hp] at hp2
    · intro hp2
      simp [afterCallback, hp] at hp2

theorem single_step (e : Event) (s t : QUaSignaler) (hs : Single s) (he : e.safe = true)
    (h : step e s = some t) : Single t := by
  obtain ⟨h1, h2, h3⟩ := hs
  cases e with
  | call f =>
    simp only [step, Option.some.injEq] at h
    subst h
    have hmem : ∀ c ∈ s.m_funcs ++ [f], c.body.noRaise = true := by
      intro c hc
      rcases List.mem_append.1 hc with hc | hc
      · exact h3 c hc
      · simp only [List.mem_singleton] at hc
        subst hc
        exact he
    cases hp : s.m_processing with
    | true =>
      rw [execLater_of_processing _ _ hp]
      exact ⟨h1, by simpa [hp] using h2, hmem⟩
    | false =>
      rw [execLater_of_idle _ _ hp]
      have h0 : s.posted = 0 := by
        have : ¬ s.posted = 1 := fun h => by simpa [hp] using h2.2 h
        omega
      exact ⟨by simp [h0], by simp [h0], hmem⟩
  | drain =>
    obtain ⟨hpos, hp, h1 | ⟨f, rest, hq, hr, rfl⟩ | ⟨f, rest, hq, hr, rfl⟩⟩ :=
      step_drain_cases s t h
    · obtain ⟨hq, rfl⟩ := h1
      have : s.posted = 1 := by omega
      exact ⟨by simp [this], by simp [this], by simpa using h3⟩
    · have hf : f.body.noRaise = true := h3 f (by simp [hq])
      rw [raises_of_noRaise _ hf] at hr
      exact absurd hr (by simp)
    · have hf : f.body.noRaise = true := h3 f (by simp [hq])
      have : s.posted = 1 := by omega
      refine ⟨by simp [afterCallback, this], by simp [afterCallback, this, hp], ?_⟩
      intro c hc
      simp only [afterCallback] at hc
      rcases List.mem_append.1 hc with hc | hc
      · exact h3 c (by simp [hq, hc])
      · exact noRaise_calls _ hf c hc

theorem fifo_new : Fifo QUaSignaler.new := rfl

theorem idleEmpty_new : IdleEmpty QUaSignaler.new := fun _ => rfl

theorem single_new : Single QUaSignaler.new := by
  refine ⟨by decide, by decide, ?_⟩
  intro c hc
  simp [QUaSignaler.new] at hc

theorem single_run (evs : List Event) (s t : QUaSignaler) (hs : Single s)
    (hsafe : ∀ e ∈ evs, e.safe = true) (h : run evs s = some t) : Single t := by
  induction evs generalizing s with
  | nil => simp only [run, Option.some.injEq] at h; exact h ▸ hs
  | cons e es ih =>
    simp only [run] at h
    cases hst : step e s with
    | none => simp [hst] at h
    | some u =>
      rw [hst] at h
      exact ih u (single_step e s u hs (hsafe e (by simp)) hst)
        (fun e2 he2 => hsafe e2 (by simp [he2])) h

/-! ### QUaSignaler: histories only grow, a safe queue drains -/

theorem enqueued_step (e : Event) (s t : QUaSignaler) (h : step e s = some t) :
    s.enqueued <+: t.enqueued := by
  cases e with
  | call f =>
    simp only [step, Option.some.injEq] at h
    subst h
    cases hp : s.m_processing <;> simp [execLater, hp]
  | drain =>
    obtain ⟨_, _, h1 | ⟨f, rest, _, _, rfl⟩ | ⟨f, rest, _, _, rfl⟩⟩ := step_drain_cases s t h
    · obtain ⟨_, rfl⟩ := h1
      exact List.prefix_refl _
    · simp [afterCallback]
    · simp [afterCallback]

theorem enqueued_run (evs : List Event) (s t : QUaSignaler) (h : run evs s = some t) :
    s.enqueued <+: t.enqueued :=
  run_preserves (fun u => s.enqueued <+: u.enqueued)
    (fun e u v hu hst => List.IsPrefix.trans hu (enqueued_step e u v hst))
    evs s t (List.prefix_refl _) h

theorem step_drain_nil (s : QUaSignaler) (hpos : s.posted ≠ 0)
    (hp : s.m_processing = true) (hq : s.m_funcs = []) :
    step .drain s = some { s with posted := s.posted - 1, m_processing := false } := by
  simp only [step, deliver, if_neg hpos]
  rw [on_sendEvent_nil _ (by simpa using hp) (by simpa using hq)]

theorem step_drain_returns (s : QUaSignaler) (f : Callback) (rest : List Callback)
    (hpos : s.posted ≠ 0) (hp : s.m_processing = true) (hq : s.m_funcs = f :: rest)
    (hr : f.body.raises = false) :
    step .drain s =
      some { afterCallback { s with posted := s.posted - 1 } f rest with
               posted := s.posted - 1 + 1 } := by
  simp only [step, deliver, if_neg hpos]
  rw [on_sendEvent_cons _ f rest (by simpa using hp) (by simpa using hq)]
  simp only [hr, Bool.false_eq_true, if_false]
  rfl

theorem step_drain_throws (s : QUaSignaler) (f : Callback) (rest : List Callback)
    (hpos : s.posted ≠ 0) (hp : s.m_processing = true) (hq : s.m_funcs = f :: rest)
    (hr : f.body.raises = true) :
    step .drain s = some (afterCallback { s with posted := s.posted - 1 } f rest) := by
  simp only [step, deliver, if_neg hpos]
  rw [on_sendEvent_cons _ f rest (by simpa using hp) (by simpa using hq)]
  simp only [hr, if_true]

theorem size_pos (b : Body) : 0 < b.size := by
  induction b with
  | ret => decide
  | raise => decide
  | execLater l f k ihf _ => simp only [Body.size]; omega

/-- A draining signaler whose callbacks do not throw reaches idle after
`weight + 1` drain steps. -/
theorem drain_to_idle (w : Nat) :
    ∀ s : QUaSignaler, Single s → s.m_processing = true → weight s.m_funcs = w →
      ∃ t, run (List.replicate (w + 1) Event.drain) s = some t ∧ t.m_processing = false := by
  induction w with
  | zero =>
    intro s hs hp hw
    have hpos : s.posted ≠ 0 := by
      have := hs.2.1.1 hp
      omega
    have hq : s.m_funcs = [] := by
      cases hq : s.m_funcs with
      | nil => rfl
      | cons f rest =>
        rw [hq] at hw
        simp only [weight] at hw
        have := size_pos f.body
        omega
    refine ⟨{ s with posted := s.posted - 1, m_processing := false }, ?_, rfl⟩
    simp [List.replicate, run, step_drain_nil s hpos hp hq]
  | succ w ih =>
    intro s hs hp hw
    have hpos : s.posted ≠ 0 := by
      have := hs.2.1.1 hp
      omega
    have hcases : s.m_funcs = [] ∨ ∃ f rest, s.m_funcs = f :: rest := by
      cases s.m_funcs with
      | nil => exact Or.inl rfl
      | cons f rest => exact Or.inr ⟨f, rest, rfl⟩
    rcases hcases with hq | ⟨f, rest, hq⟩
    · rw [hq] at hw
      simp [weight] at hw
    · have hf : f.body.noRaise = true := hs.2.2 f (by simp [hq])
      have hr := raises_of_noRaise _ hf
      have hst := step_drain_returns s f rest hpos hp hq hr
      have hs2 := single_step .drain s _ hs rfl hst
      have hw2 : weight (rest ++ f.body.calls) = w := by
        rw [weight_append]
        rw [hq] at hw
        simp only [weight] at hw
        have := weight_calls f.body
        omega
      obtain ⟨t, ht, htp⟩ := ih _ hs2 (by simpa [afterCallback] using hp)
        (by simpa [afterCallback] using hw2)
      refine ⟨t, ?_, htp⟩
      rw [List.replicate_succ, run, hst]
      exact ht

/-- With `m_processing` set and no `sendEvent` posted, only `execLater` calls
can happen, and they only append. -/
theorem stuck_run (evs : List Event) (t u : QUaSignaler)
    (hp : t.m_processing = true) (h0 : t.posted = 0) (h : run evs t = some u) :
    u = { t with m_funcs := t.m_funcs ++ calledFuncs evs,
                 enqueued := t.enqueued ++ labels (calledFuncs evs) } ∧
      Event.drain ∉ evs := by
  induction evs generalizing t with
  | nil =>
    simp only [run, Option.some.injEq] at h
    subst h
    simp [calledFuncs, labels]
  | cons e es ih =>
    cases e with
    | call f =>
      simp only [run, step] at h
      have hp2 : (execLater f t).m_processing = true := execLater_processing _ _
      have h02 : (execLater f t).posted = 0 := by
        rw [execLater_of_processing _ _ hp]
        exact h0
      obtain ⟨hu, hnd⟩ := ih _ hp2 h02 h
      refine ⟨?_, by simpa using hnd⟩
      rw [hu, execLater_of_processing _ _ hp]
      simp [calledFuncs, labels]
    | drain =>
      simp [run, step, deliver, h0] at h

/-! ### QUaSignaler: the claims -/

/-- C1: callbacks are invoked in the order of their `execLater` calls, made
from outside or from inside a running callback. After every run from the
constructed signaler the invoked history followed by the queue is the enqueue
history; an idle signaler has invoked everything enqueued; when no callback
throws, `drainsLeft` further drain steps make the signaler idle with every
enqueued callback invoked in enqueue order. In the scenario C1, C2, C3 from
outside and C4 from inside C1, the first drain step runs C1 and leaves
C2, C3, C4 queued, four drain steps invoke 1, 2, 3, 4 with `m_processing`
still set, and the fifth clears it. -/
theorem signaler_fifo_order (evs : List Event) (s : QUaSignaler)
    (h : run evs QUaSignaler.new = some s) :
    s.invoked ++ labels s.m_funcs = s.enqueued ∧
    (s.m_processing = false → s.invoked = s.enqueued) ∧
    ((∀ e ∈ evs, e.safe = true) →
      ∃ t, run (List.replicate (drainsLeft s) Event.drain) s = some t ∧
        t.m_processing = false ∧ t.invoked = t.enqueued ∧ s.enqueued <+: t.enqueued) ∧
    (run (fifoScenario ++ List.replicate 1 Event.drain) QUaSignaler.new).map
        (fun u => (u.invoked, labels u.m_funcs)) = some ([1], [2, 3, 4]) ∧
    (run (fifoScenario ++ List.replicate 4 Event.drain) QUaSignaler.new).map
        (fun u => (u.invoked, u.m_processing)) = some ([1, 2, 3, 4], true) ∧
    (run (fifoScenario ++ List.replicate 5 Event.drain) QUaSignaler.new).map
        (fun u => (u.invoked, u.m_processing)) = some ([1, 2, 3, 4], false) := by
  have hfifo : ∀ evs2 u, run evs2 QUaSignaler.new = some u → Fifo u := fun evs2 u hu =>
    run_preserves Fifo fifo_step evs2 _ u fifo_new hu
  have hidle : ∀ evs2 u, run evs2 QUaSignaler.new = some u → IdleEmpty u := fun evs2 u hu =>
    run_preserves IdleEmpty idleEmpty_step evs2 _ u idleEmpty_new hu
  have hdone : ∀ evs2 u, run evs2 QUaSignaler.new = some u → u.m_processing = false →
      u.invoked = u.enqueued := by
    intro evs2 u hu hp
    have h1 := hfifo evs2 u hu
    have h2 := hidle evs2 u hu hp
    unfold Fifo at h1
    rw [h2] at h1
    simpa [labels] using h1
  refine ⟨hfifo evs s h, hdone evs s h, ?_, rfl, rfl, rfl⟩
  intro hsafe
  have hs : Single s := single_run evs _ s single_new hsafe h
  rcases Bool.eq_false_or_eq_true s.m_processing with hp | hp
  · obtain ⟨t, ht, htp⟩ := drain_to_idle (weight s.m_funcs) s hs hp rfl
    have hd : drainsLeft s = weight s.m_funcs + 1 := by simp [drainsLeft, hp]
    have hrun : run (evs ++ List.replicate (weight s.m_funcs + 1) Event.drain)
        QUaSignaler.new = some t := by
      rw [run_append, h]
      exact ht
    exact ⟨t, by rw [hd]; exact ht, htp, hdone _ t hrun htp, enqueued_run _ s t ht⟩
  · have hd : drainsLeft s = 0 := by simp [drainsLeft, hp]
    exact ⟨s, by rw [hd]; rfl, hp, hdone evs s h hp, List.prefix_refl _⟩

/-- Witness of C1: the scenario after four drain steps. -/
theorem signaler_fifo_order_witness :
    run (fifoScenario ++ List.replicate 4 Event.drain) QUaSignaler.new =
        some ⟨true, [], 1, [1, 2, 3, 4], [1, 2, 3, 4]⟩ ∧
      ([1, 2, 3, 4] : List Nat) ++ labels [] = [1, 2, 3, 4] :=
  ⟨rfl, (signaler_fifo_order (fifoScenario ++ List.replicate 4 Event.drain)
    ⟨true, [], 1, [1, 2, 3, 4], [1, 2, 3, 4]⟩ rfl).1⟩

/-- C2: in every state reached from the constructed signaler by `execLater`
calls and drain steps whose callbacks do not throw, at most one `sendEvent`
is posted, `m_processing` is set exactly when one is posted, an idle signaler
has an empty queue, and `execLater` on a signaler with `m_processing` set
appends the callback and changes neither the posted events nor
`m_processing`. -/
theorem signaler_single_drain (evs : List Event) (s : QUaSignaler)
    (hsafe : ∀ e ∈ evs, e.safe = true) (h : run evs QUaSignaler.new = some s) :
    s.posted ≤ 1 ∧
    (s.m_processing = true ↔ s.posted = 1) ∧
    (s.m_processing = false → s.m_funcs = []) ∧
    (s.m_processing = true → ∀ c : Callback,
      (execLater c s).m_funcs = s.m_funcs ++ [c] ∧
      (execLater c s).posted = s.posted ∧
      (execLater c s).m_processing = true ∧
      (execLater c s).invoked = s.invoked) := by
  have hs : Single s := single_run evs _ s single_new hsafe h
  refine ⟨hs.1, hs.2.1, run_preserves IdleEmpty idleEmpty_step evs _ s idleEmpty_new h, ?_⟩
  intro hp c
  rw [execLater_of_processing _ _ hp]
  exact ⟨rfl, rfl, hp, rfl⟩

/-- Witness of C2: the scenario of C1 after two drain steps. -/
theorem signaler_single_drain_witness :
    run (fifoScenario ++ List.replicate 2 Event.drain) QUaSignaler.new =
        some ⟨true, [⟨3, .ret⟩, ⟨4, .ret⟩], 1, [1, 2], [1, 2, 3, 4]⟩ ∧
      (1 : Nat) ≤ 1 :=
  ⟨rfl, (signaler_single_drain (fifoScenario ++ List.replicate 2 Event.drain)
    ⟨true, [⟨3, .ret⟩, ⟨4, .ret⟩], 1, [1, 2], [1, 2, 3, 4]⟩ (by decide) rfl).1⟩

/-- C3: when the callback invoked by `on_sendEvent` throws, the exception
leaves the slot with the failed callback removed from the queue, the
callbacks behind it still queued in the same order (followed by whatever the
failed callback itself enqueued before it threw), and `m_processing` still
set. -/
theorem on_sendEvent_failing_callback (s : QUaSignaler) (f : Callback)
    (rest : List Callback) (hp : s.m_processing = true) (hq : s.m_funcs = f :: rest)
    (hf : f.body.raises = true) :
    ∃ t, on_sendEvent s = .threw t ∧
      t.m_funcs = rest ++ f.body.calls ∧
      rest <+: t.m_funcs ∧
      t.m_funcs.length + 1 = s.m_funcs.length + f.body.calls.length ∧
      t.m_processing = true ∧
      t.invoked = s.invoked ++ [f.label] := by
  refine ⟨afterCallback s f rest, ?_, rfl, ?_, ?_, hp, rfl⟩
  · rw [on_sendEvent_cons s f rest hp hq, if_pos hf]
  · simp [afterCallback]
  · simp [afterCallback, hq]
    omega

/-- Witness of C3: a throwing callback at the front, one callback behind. -/
theorem on_sendEvent_failing_callback_witness :
    ∃ t, on_sendEvent ⟨true, [⟨9, .raise⟩, ⟨2, .ret⟩], 0, [], [9, 2]⟩ = .threw t ∧
      t.m_funcs = [⟨2, .ret⟩] ++ Body.calls .raise ∧
      [⟨2, .ret⟩] <+: t.m_funcs ∧
      t.m_funcs.length + 1 = 2 + (Body.calls .raise).length ∧
      t.m_processing = true ∧
      t.invoked = [] ++ [9] :=
  on_sendEvent_failing_callback ⟨true, [⟨9, .raise⟩, ⟨2, .ret⟩], 0, [], [9, 2]⟩
    ⟨9, .raise⟩ [⟨2, .ret⟩] rfl rfl rfl

/-- C4, as stated, fails: after the callback 9 has thrown in a drain step
and callback 3 has been passed to `execLater`, `m_processing` is set, no
`sendEvent` is posted, 2 and 3 sit in the queue, only 9 has been invoked and
no drain step can be delivered. -/
theorem failed_callback_strands_queue :
    (run failScenario QUaSignaler.new).map
        (fun u => (u.m_processing, u.posted, labels u.m_funcs, u.invoked, deliver u)) =
      some (true, 0, [2, 3], [9], none) ∧
    run (failScenario ++ [Event.drain]) QUaSignaler.new = none := by
  exact ⟨rfl, rfl⟩

/-- C4, amended: a drain step whose callback throws leaves `m_processing`
set and no `sendEvent` posted; from then on every run consists of
`execLater` calls only, which append their callbacks behind the remaining
ones in call order and post nothing, so no drain step can be delivered and
no further callback is invoked. -/
theorem failed_callback_blocks_drain (s : QUaSignaler) (f : Callback)
    (rest : List Callback) (hp : s.m_processing = true) (hpos : s.posted = 1)
    (hq : s.m_funcs = f :: rest) (hf : f.body.raises = true) :
    ∃ t, deliver s = some (.threw t) ∧ step .drain s = some t ∧
      t.m_processing = true ∧ t.posted = 0 ∧ t.m_funcs = rest ++ f.body.calls ∧
      ∀ evs u, run evs t = some u →
        Event.drain ∉ evs ∧
        u.m_funcs = t.m_funcs ++ calledFuncs evs ∧
        u.m_processing = true ∧ u.posted = 0 ∧
        u.invoked = t.invoked ∧
        deliver u = none := by
  have hne : s.posted ≠ 0 := by omega
  refine ⟨afterCallback { s with posted := s.posted - 1 } f rest, ?_,
    step_drain_throws s f rest hne hp hq hf, hp, by simp [afterCallback, hpos], rfl, ?_⟩
  · simp only [deliver, if_neg hne]
    rw [on_sendEvent_cons _ f rest (by simpa using hp) (by simpa using hq), if_pos hf]
  · intro evs u hu
    obtain ⟨hu2, hnd⟩ := stuck_run evs _ u (by simpa [afterCallback] using hp)
      (by simp [afterCallback, hpos]) hu
    subst hu2
    refine ⟨hnd, rfl, hp, by simp [afterCallback, hpos], rfl, ?_⟩
    simp [deliver, afterCallback, hpos]

/-- Witness of C4 amended: the failing callback 9 at the front, 2 behind. -/
theorem failed_callback_blocks_drain_witness :
    ∃ t, deliver ⟨true, [⟨9, .raise⟩, ⟨2, .ret⟩], 1, [], [9, 2]⟩ = some (.threw t) ∧
      step .drain ⟨true, [⟨9, .raise⟩, ⟨2, .ret⟩], 1, [], [9, 2]⟩ = some t ∧
      t.m_processing = true ∧ t.posted = 0 ∧ t.m_funcs = [⟨2, .ret⟩] ++ Body.calls .raise ∧
      ∀ evs u, run evs t = some u →
        Event.drain ∉ evs ∧
        u.m_funcs = t.m_funcs ++ calledFuncs evs ∧
        u.m_processing = true ∧ u.posted = 0 ∧
        u.invoked = t.invoked ∧
        deliver u = none :=
  failed_callback_blocks_drain ⟨true, [⟨9, .raise⟩, ⟨2, .ret⟩], 1, [], [9, 2]⟩
    ⟨9, .raise⟩ [⟨2, .ret⟩] rfl rfl rfl rfl

/-! ### UA_NodeId: equality and hash -/

theorem UA_String_equal_iff (s1 s2 : UA_String) : UA_String_equal s1 s2 = true ↔ s1 = s2 := by
  constructor
  · intro h
    simp only [UA_String_equal, Bool.and_eq_true, beq_iff_eq] at h
    exact h.2
  · rintro rfl
    simp [UA_String_equal]

theorem UA_Guid_equal_iff (g1 g2 : UA_Guid) : UA_Guid_equal g1 g2 = true ↔ g1 = g2 := by
  cases g1
  cases g2
  simp [UA_Guid_equal, and_assoc]

theorem operator_eq_iff_eq (a b : UA_NodeId) : a.operator_eq b = true ↔ a = b := by
  obtain ⟨na, ia⟩ := a
  obtain ⟨nb, ib⟩ := b
  cases ia <;> cases ib <;>
    simp [UA_NodeId.operator_eq, UA_NodeId.identifierType, Identifier.getNumeric,
      Identifier.getString, Identifier.getGuid, Identifier.getByteString,
      UA_String_equal_iff, UA_Guid_equal_iff, UA_ByteString_equal]

/-- C5: `operator==` on node identifiers is true exactly when both have the
same `namespaceIndex`, the same kind tag and the same payload (the numeric
value, or the content of the string, GUID or byte string), and false as soon
as they differ in one of the three. -/
theorem nodeId_operator_eq_iff (a b : UA_NodeId) :
    (a.operator_eq b = true ↔
      a.namespaceIndex = b.namespaceIndex ∧ a.identifierType = b.identifierType ∧
        a.identifier = b.identifier) ∧
    (a.operator_eq b = false ↔
      a.namespaceIndex ≠ b.namespaceIndex ∨ a.identifierType ≠ b.identifierType ∨
        a.identifier ≠ b.identifier) ∧
    (a.identifierType = .UA_NODEIDTYPE_NUMERIC → b.identifierType = .UA_NODEIDTYPE_NUMERIC →
      (a.identifier = b.identifier ↔ a.identifier.getNumeric = b.identifier.getNumeric)) ∧
    (a.identifierType = .UA_NODEIDTYPE_STRING → b.identifierType = .UA_NODEIDTYPE_STRING →
      (a.identifier = b.identifier ↔ a.identifier.getString = b.identifier.getString)) ∧
    (a.identifierType = .UA_NODEIDTYPE_GUID → b.identifierType = .UA_NODEIDTYPE_GUID →
      (a.identifier = b.identifier ↔ a.identifier.getGuid = b.identifier.getGuid)) ∧
    (a.identifierType = .UA_NODEIDTYPE_BYTESTRING →
      b.identifierType = .UA_NODEIDTYPE_BYTESTRING →
      (a.identifier = b.identifier ↔
        a.identifier.getByteString = b.identifier.getByteString)) := by
  have key : a.operator_eq b = true ↔
      a.namespaceIndex = b.namespaceIndex ∧ a.identifierType = b.identifierType ∧
        a.identifier = b.identifier := by
    rw [operator_eq_iff_eq]
    constructor
    · rintro rfl
      exact ⟨rfl, rfl, rfl⟩
    · rintro ⟨h1, _, h3⟩
      obtain ⟨na, ia⟩ := a
      obtain ⟨nb, ib⟩ := b
      simp only at h1 h3
      rw [h1, h3]
  refine ⟨key, ?_, ?_, ?_, ?_, ?_⟩
  · rw [← Bool.not_eq_true, key]
    tauto
  all_goals
    obtain ⟨na, ia⟩ := a
    obtain ⟨nb, ib⟩ := b
    cases ia <;> cases ib <;>
      simp [UA_NodeId.identifierType, Identifier.getNumeric, Identifier.getString,
        Identifier.getGuid, Identifier.getByteString]

/-- C6: node identifiers that `operator==` holds equal have the same `qHash`
for every seed, whatever the integer hashes and the content digest are. -/
theorem nodeId_qHash_agrees (H : HashFns) (seed : Nat) (a b : UA_NodeId)
    (h : a.operator_eq b = true) :
    UA_NodeId.qHash H a seed = UA_NodeId.qHash H b seed ∧
    UA_NodeId.qHash H a seed =
      (H.qHash_ushort a.namespaceIndex seed ^^^ H.qHash_int a.identifierType.toNat seed) ^^^
        (match a.identifier with
         | .numeric n => H.qHash_uint n seed
         | _ => H.UA_NodeId_hash a) := by
  rw [operator_eq_iff_eq] at h
  subst h
  refine ⟨rfl, ?_⟩
  obtain ⟨na, ia⟩ := a
  cases ia <;> simp [UA_NodeId.qHash, UA_NodeId.identifierType, Identifier.getNumeric]

/-- Witness of C6: two string identifiers with the same content. -/
theorem nodeId_qHash_agrees_witness :
    UA_NodeId.operator_eq ⟨2, .string [104, 105]⟩ ⟨2, .string [104, 105]⟩ = true ∧
    UA_NodeId.qHash sampleHashFns ⟨2, .string [104, 105]⟩ 7 =
      UA_NodeId.qHash sampleHashFns ⟨2, .string [104, 105]⟩ 7 :=
  ⟨by decide, (nodeId_qHash_agrees sampleHashFns 7 ⟨2, .string [104, 105]⟩
    ⟨2, .string [104, 105]⟩ (by decide)).1⟩

/-! ### QUaQualifiedName: canonical string and browse path -/

theorem digitChar_spec (d : Nat) (h : d < 10) :
    (Nat.digitChar d).isDigit = true ∧ (Nat.digitChar d).toNat - 48 = d := by
  interval_cases d <;> decide

theorem isDigit_ne_colon (c : Char) (h : c.isDigit = true) : c ≠ ':' := by
  rintro rfl
  exact absurd h (by decide)

theorem digitsValue_snoc (ds : QString) (c : Char) :
    digitsValue (ds ++ [c]) = digitsValue ds * 10 + (c.toNat - 48) := by
  simp [digitsValue, List.foldl_append]

/-- What `Nat.toDigitsCore 10` puts in front of its accumulator. -/
theorem toDigitsCore_spec (fuel : Nat) :
    ∀ (n : Nat) (acc : QString), n < fuel →
      ∃ ds : QString, Nat.toDigitsCore 10 fuel n acc = ds ++ acc ∧ ds ≠ [] ∧
        (∀ c ∈ ds, c.isDigit = true) ∧ digitsValue ds = n := by
  induction fuel with
  | zero => intro n acc h; omega
  | succ fuel ih =>
    intro n acc h
    have hd := digitChar_spec (n % 10) (Nat.mod_lt _ (by decide))
    by_cases h0 : n / 10 = 0
    · refine ⟨[Nat.digitChar (n % 10)], ?_, by simp, ?_, ?_⟩
      · simp [Nat.toDigitsCore, h0]
      · intro c hc
        simp only [List.mem_singleton] at hc
        rw [hc]
        exact hd.1
      · have hn : n % 10 = n := by omega
        simp only [digitsValue, List.foldl_cons, List.foldl_nil, hd.2]
        omega
    · have hlt : n / 10 < fuel := by omega
      obtain ⟨ds, hds, _, hall, hval⟩ := ih (n / 10) (Nat.digitChar (n % 10) :: acc) hlt
      refine ⟨ds ++ [Nat.digitChar (n % 10)], ?_, by simp, ?_, ?_⟩
      · simp [Nat.toDigitsCore, h0, hds]
      · intro c hc
        rcases List.mem_append.1 hc with hc | hc
        · exact hall c hc
        · simp only [List.mem_singleton] at hc
          rw [hc]
          exact hd.1
      · rw [digitsValue_snoc, hval, hd.2]
        omega

theorem decimal_spec (n : Nat) :
    decimal n ≠ [] ∧ (∀ c ∈ decimal n, c.isDigit = true) ∧ digitsValue (decimal n) = n := by
  obtain ⟨ds, hds, hne, hall, hval⟩ := toDigitsCore_spec (n + 1) n [] (Nat.lt_succ_self n)
  have : decimal n = ds := by simpa [decimal, Nat.toDigits] using hds
  rw [this]
  exact ⟨hne, hall, hval⟩

theorem parseUShort_decimal (n : Nat) (h : n < 65536) : parseUShort (decimal n) = some n := by
  obtain ⟨hne, hall, hval⟩ := decimal_spec n
  have hall2 : (decimal n).all Char.isDigit = true := by
    rw [List.all_eq_true]
    exact hall
  simp [parseUShort, hne, hall2, hval, h]

theorem splitFirstColon_append (p r : QString) (hp : ∀ c ∈ p, c ≠ ':') :
    splitFirstColon (p ++ ':' :: r) = some (p, r) := by
  induction p with
  | nil => simp [splitFirstColon]
  | cons c cs ih =>
    have hc : c ≠ ':' := hp c (by simp)
    have ih2 := ih (fun d hd => hp d (by simp [hd]))
    simp [splitFirstColon, hc, ih2]

theorem splitFirstColon_some (str p r : QString) (h : splitFirstColon str = some (p, r)) :
    str = p ++ ':' :: r := by
  induction str generalizing p with
  | nil => simp [splitFirstColon] at h
  | cons c cs ih =>
    by_cases hc : c = ':'
    · simp only [splitFirstColon, hc, if_true, Option.some.injEq, Prod.mk.injEq] at h
      obtain ⟨rfl, rfl⟩ := h
      simp [hc]
    · simp only [splitFirstColon, hc, if_false, Option.map_eq_some', Prod.mk.injEq] at h
      obtain ⟨⟨p2, r2⟩, hsplit, rfl, rfl⟩ := h
      have := ih p2 hsplit
      simp [this]

theorem fromXmlString_toXmlString_of_pos (q : QUaQualifiedName)
    (hq : q.m_namespace < 65536) (hpos : q.m_namespace ≠ 0) :
    fromXmlString (toXmlString q) = q := by
  obtain ⟨_, hall, _⟩ := decimal_spec q.m_namespace
  have hsplit := splitFirstColon_append (decimal q.m_namespace) q.m_name
    (fun c hc => isDigit_ne_colon c (hall c hc))
  have hgt : q.m_namespace > 0 := Nat.pos_of_ne_zero hpos
  simp only [toXmlString, hgt, if_true, fromXmlString, hsplit, parseUShort_decimal _ hq]

/-- C7, as stated, fails: the name `1:f` in namespace 0 is rendered as `1:f`,
which is also the canonical string of the name `f` in namespace 1 and is
parsed as that one. -/
theorem qualifiedName_roundtrip_fails :
    toXmlString ⟨0, ['1', ':', 'f']⟩ = ['1', ':', 'f'] ∧
    toXmlString ⟨0, ['1', ':', 'f']⟩ = toXmlString ⟨1, ['f']⟩ ∧
    fromXmlString (toXmlString ⟨0, ['1', ':', 'f']⟩) = ⟨1, ['f']⟩ ∧
    fromXmlString (toXmlString ⟨0, ['1', ':', 'f']⟩) ≠ ⟨0, ['1', ':', 'f']⟩ := by
  decide

/-- C7, amended: for a QualifiedName with a 16-bit namespaceIndex, parsing
its canonical string gives it back exactly when namespaceIndex > 0 or the
name does not itself start with a numeric field followed by `:`; in
particular for every name when namespaceIndex > 0, and for every name without
`:` when namespaceIndex is 0. -/
theorem qualifiedName_roundtrip_iff (q : QUaQualifiedName) (hq : q.m_namespace < 65536) :
    (fromXmlString (toXmlString q) = q ↔
      (q.m_namespace ≠ 0 ∨ hasNumericPrefix q.m_name = false)) ∧
    (q.m_namespace ≠ 0 → fromXmlString (toXmlString q) = q) ∧
    (q.m_namespace = 0 → ':' ∉ q.m_name → fromXmlString (toXmlString q) = q) := by
  have hiff : fromXmlString (toXmlString q) = q ↔
      (q.m_namespace ≠ 0 ∨ hasNumericPrefix q.m_name = false) := by
    by_cases hpos : q.m_namespace = 0
    · obtain ⟨ns, name⟩ := q
      simp only at hpos
      subst hpos
      simp only [toXmlString, gt_iff_lt, Nat.lt_irrefl, if_false, fromXmlString,
        hasNumericPrefix, ne_eq, not_true_eq_false, false_or]
      cases hs : splitFirstColon name with
      | none => simp
      | some pr =>
        obtain ⟨p, r⟩ := pr
        cases hp : parseUShort p with
        | none => simp [hp]
        | some n =>
          have hlen := congrArg List.length (splitFirstColon_some name p r hs)
          simp only [List.length_append, List.length_cons] at hlen
          simp only [hp, Option.isSome_some, Bool.true_eq_false, iff_false]
          intro hcontra
          injection hcontra with _ h2
          rw [h2] at hlen
          omega
    · constructor
      · intro _
        exact Or.inl hpos
      · intro _
        exact fromXmlString_toXmlString_of_pos q hq hpos
  refine ⟨hiff, fun hpos => hiff.2 (Or.inl hpos), ?_⟩
  intro h0 hcolon
  apply hiff.2
  right
  simp only [hasNumericPrefix]
  cases hs : splitFirstColon q.m_name with
  | none => rfl
  | some pr =>
    obtain ⟨p, r⟩ := pr
    have := splitFirstColon_some _ p r hs
    exact absurd (by rw [this]; simp) hcolon

/-- Witness of C7 amended: namespace 1 and a name that contains `:`. -/
theorem qualifiedName_roundtrip_iff_witness :
    (1 : Nat) < 65536 ∧ fromXmlString (toXmlString ⟨1, ['a', ':', 'b']⟩) = ⟨1, ['a', ':', 'b']⟩ :=
  ⟨by decide, (qualifiedName_roundtrip_iff ⟨1, ['a', ':', 'b']⟩ (by decide)).2.1 (by decide)⟩

/-- C8: `reduce` returns the concatenation, in list order, of each element's
canonical string followed by one `/`: empty for the empty list, and for a list
followed by one more element the result for the list followed by that
element's canonical string and `/`. -/
theorem reduce_concat :
    reduce [] = [] ∧
    (∀ (l : List QUaQualifiedName) (e : QUaQualifiedName),
      reduce (l ++ [e]) = reduce l ++ toXmlString e ++ ['/']) ∧
    (∀ l : List QUaQualifiedName,
      reduce l = (l.map (fun e => toXmlString e ++ ['/'])).flatten) := by
  refine ⟨rfl, ?_, ?_⟩
  · intro l e
    simp [reduce, List.foldl_append]
  · intro l
    have gen : ∀ (acc : QString), List.foldl
        (fun strRet browseName => strRet ++ (toXmlString browseName ++ ['/'])) acc l =
        acc ++ (l.map (fun e => toXmlString e ++ ['/'])).flatten := by
      induction l with
      | nil => intro acc; simp
      | cons x xs ih => intro acc; simp [ih, List.append_assoc]
    simpa [reduce] using gen []

/-! ### QUaWriteMask and QUaAccessLevel: raw value and flags -/

theorem readBit_writeBit (width w k j : Nat) (b : Bool) (hk : k < width) (hj : j < width) :
    readBit (writeBit width w k b) j = if j = k then b else readBit w j := by
  simp only [readBit, writeBit, Nat.testBit_or, Nat.testBit_and, Nat.testBit_xor,
    Nat.testBit_two_pow_sub_one, Nat.testBit_shiftLeft, hj, decide_True]
  by_cases hjk : j = k
  · subst hjk
    cases b <;> simp
  · rw [if_neg hjk]
    by_cases hge : k ≤ j
    · have h1 : j - k ≠ 0 := by omega
      have h2 : (1 : Nat).testBit (j - k) = false := by
        rw [Bool.eq_false_iff]
        exact fun h => h1 (Nat.testBit_one_eq_true_iff_self_eq_zero.1 h)
      cases b <;> simp [hge, h2]
    · simp [hge]

/-- C9: constructing a `QUaWriteMask` from a 32-bit integer, or a
`QUaAccessLevel` from an 8-bit integer, and reading `intValue` back gives the
same integer, bit for bit, the bits without a named flag included. -/
theorem permission_raw_roundtrip (v w : Nat) (hv : v < 2 ^ 32) (hw : w < 2 ^ 8) :
    (QUaWriteMask.ofValue v).intValue = v ∧
    (QUaAccessLevel.ofValue w).intValue = w ∧
    (∀ k, readBit (QUaWriteMask.ofValue v).intValue k = v.testBit k) ∧
    (∀ k, readBit (QUaAccessLevel.ofValue w).intValue k = w.testBit k) := by
  have h1 : (QUaWriteMask.ofValue v).intValue = v := Nat.mod_eq_of_lt hv
  have h2 : (QUaAccessLevel.ofValue w).intValue = w := Nat.mod_eq_of_lt hw
  exact ⟨h1, h2, fun k => by rw [h1, readBit], fun k => by rw [h2, readBit]⟩

/-- Witness of C9: raw values with the unnamed upper bits set. -/
theorem permission_raw_roundtrip_witness :
    (QUaWriteMask.ofValue 0xFFC00001).intValue = 0xFFC00001 ∧
    (QUaAccessLevel.ofValue 0x81).intValue = 0x81 :=
  ⟨(permission_raw_roundtrip 0xFFC00001 0x81 (by decide) (by decide)).1,
   (permission_raw_roundtrip 0xFFC00001 0x81 (by decide) (by decide)).2.1⟩

/-- C10: whatever the storage held before, each of the 22 named flags of a
default-constructed `QUaWriteMask` reads true. -/
theorem writeMask_default_all_named (mem : QUaWriteMask) (f : QUaWriteMask.bit_map) :
    (QUaWriteMask.new mem).bits f = true := by
  cases f <;>
    simp [QUaWriteMask.new, QUaWriteMask.bits, QUaWriteMask.setBits,
      QUaWriteMask.bit_map.pos, readBit_writeBit]

theorem accessLevel_new_bit (mem : QUaAccessLevel) (i : Nat) (hi : i < 7) :
    readBit (QUaAccessLevel.new mem).intValue i = decide (i = 0) := by
  interval_cases i <;>
    simp [QUaAccessLevel.new, QUaAccessLevel.setBits, QUaAccessLevel.bit_map.pos,
      readBit_writeBit]

theorem writeMask_new_upper_bit (mem : QUaWriteMask) (k : Nat) (h22 : 22 ≤ k) (h32 : k < 32) :
    readBit (QUaWriteMask.new mem).intValue k = readBit mem.intValue k := by
  interval_cases k <;>
    simp [QUaWriteMask.new, QUaWriteMask.setBits, QUaWriteMask.bit_map.pos,
      readBit_writeBit]

/-- C11: whatever the storage held before, a default-constructed
`QUaAccessLevel` has `bRead` true and `bWrite`, `bHistoryRead`,
`bHistoryWrite`, `bSemanticChange`, `bStatusWrite`, `bTimestampWrite` false,
and the 7 named bits of its raw value are 0000001. -/
theorem accessLevel_default_read_only (mem : QUaAccessLevel) :
    (QUaAccessLevel.new mem).bits .bRead = true ∧
    (QUaAccessLevel.new mem).bits .bWrite = false ∧
    (QUaAccessLevel.new mem).bits .bHistoryRead = false ∧
    (QUaAccessLevel.new mem).bits .bHistoryWrite = false ∧
    (QUaAccessLevel.new mem).bits .bSemanticChange = false ∧
    (QUaAccessLevel.new mem).bits .bStatusWrite = false ∧
    (QUaAccessLevel.new mem).bits .bTimestampWrite = false ∧
    (QUaAccessLevel.new mem).intValue % 2 ^ 7 = 1 := by
  have hb := accessLevel_new_bit mem
  refine ⟨?_, ?_, ?_, ?_, ?_, ?_, ?_, ?_⟩
  · simpa [QUaAccessLevel.bits, QUaAccessLevel.bit_map.pos] using hb 0 (by decide)
  · simpa [QUaAccessLevel.bits, QUaAccessLevel.bit_map.pos] using hb 1 (by decide)
  · simpa [QUaAccessLevel.bits, QUaAccessLevel.bit_map.pos] using hb 2 (by decide)
  · simpa [QUaAccessLevel.bits, QUaAccessLevel.bit_map.pos] using hb 3 (by decide)
  · simpa [QUaAccessLevel.bits, QUaAccessLevel.bit_map.pos] using hb 4 (by decide)
  · simpa [QUaAccessLevel.bits, QUaAccessLevel.bit_map.pos] using hb 5 (by decide)
  · simpa [QUaAccessLevel.bits, QUaAccessLevel.bit_map.pos] using hb 6 (by decide)
  · apply Nat.eq_of_testBit_eq
    intro i
    rw [Nat.testBit_mod_two_pow]
    by_cases hi : i < 7
    · have := hb i hi
      simp only [readBit] at this
      rw [this]
      interval_cases i <;> decide
    · have h0 : i ≠ 0 := by omega
      have h1 : (1 : Nat).testBit i = false := by
        rw [Bool.eq_false_iff]
        exact fun h => h0 (Nat.testBit_one_eq_true_iff_self_eq_zero.1 h)
      simp [hi, h1]

/-- C12: bit positions follow the order of declaration. For a 32-bit `v` and
`k` from 0 to 21 the `k`-th named flag of `QUaWriteMask(v)` reads true iff
bit `k` of `v` is 1, and for an 8-bit `w` and `j` from 0 to 6 the `j`-th
named flag of `QUaAccessLevel(w)` reads true iff bit `j` of `w` is 1. -/
theorem flag_positions (v w k j : Nat) (hv : v < 2 ^ 32) (hw : w < 2 ^ 8)
    (hk : k < 22) (hj : j < 7) :
    (∃ f, writeMaskFlags[k]? = some f ∧ f.pos = k ∧
      ((QUaWriteMask.ofValue v).bits f = true ↔ v.testBit k = true)) ∧
    (∃ g, accessLevelFlags[j]? = some g ∧ g.pos = j ∧
      ((QUaAccessLevel.ofValue w).bits g = true ↔ w.testBit j = true)) := by
  have h1 : (QUaWriteMask.ofValue v).intValue = v := Nat.mod_eq_of_lt hv
  have h2 : (QUaAccessLevel.ofValue w).intValue = w := Nat.mod_eq_of_lt hw
  constructor
  · interval_cases k <;>
      exact ⟨_, rfl, rfl, by rw [QUaWriteMask.bits, h1, readBit]; rfl⟩
  · interval_cases j <;>
      exact ⟨_, rfl, rfl, by rw [QUaAccessLevel.bits, h2, readBit]; rfl⟩

/-- Witness of C12: the raw values 0x00200001 and 0x41. -/
theorem flag_positions_witness :
    (∃ f, writeMaskFlags[21]? = some f ∧ f.pos = 21 ∧
      ((QUaWriteMask.ofValue 0x00200001).bits f = true ↔
        (0x00200001 : Nat).testBit 21 = true)) ∧
    (∃ g, accessLevelFlags[6]? = some g ∧ g.pos = 6 ∧
      ((QUaAccessLevel.ofValue 0x41).bits g = true ↔ (0x41 : Nat).testBit 6 = true)) :=
  flag_positions 0x00200001 0x41 21 6 (by decide) (by decide) (by decide) (by decide)

/-- C19: the raw value of a default-constructed `QUaWriteMask` is not
0xFFFFFFFF in general. The constructor assigns the 22 named bits only: on
zeroed storage `intValue` is 0x003FFFFF, it is 0xFFFFFFFF when the storage
already held it, and the bits 22 to 31 are always those of the storage. -/
theorem writeMask_default_raw_value :
    (QUaWriteMask.new ⟨0⟩).intValue = 0x003FFFFF ∧
    (QUaWriteMask.new ⟨0⟩).intValue ≠ 0xFFFFFFFF ∧
    (QUaWriteMask.new ⟨0xFFFFFFFF⟩).intValue = 0xFFFFFFFF ∧
    (∀ (mem : QUaWriteMask) (k : Nat), 22 ≤ k → k < 32 →
      readBit (QUaWriteMask.new mem).intValue k = readBit mem.intValue k) := by
  refine ⟨by decide, by decide, by decide, writeMask_new_upper_bit⟩

/-- C18: in every state reached from the constructed signaler by `execLater`
calls and drain steps whose callbacks do not throw, a posted drain step finds
`m_processing` set, so `Q_ASSERT(m_processing)` holds when it runs. On an
empty queue the step returns with `m_processing` cleared and nothing posted;
otherwise it removes the front callback, invokes it (the callbacks it
enqueues go behind the rest) and returns with exactly one `sendEvent`
posted. -/
theorem drain_step_in_draining (evs : List Event) (s : QUaSignaler)
    (hsafe : ∀ e ∈ evs, e.safe = true) (h : run evs QUaSignaler.new = some s)
    (hpos : s.posted ≠ 0) :
    s.m_processing = true ∧
    deliver s ≠ some .assertFailed ∧
    (s.m_funcs = [] →
      deliver s = some (.returned { s with posted := 0, m_processing := false })) ∧
    (∀ f rest, s.m_funcs = f :: rest →
      ∃ t, deliver s = some (.returned t) ∧
        t.m_funcs = rest ++ f.body.calls ∧
        t.invoked = s.invoked ++ [f.label] ∧
        t.posted = 1 ∧ t.m_processing = true) := by
  have hs : Single s := single_run evs _ s single_new hsafe h
  have hp1 : s.posted = 1 := by
    have := hs.1
    omega
  have hp : s.m_processing = true := hs.2.1.2 hp1
  have hnil : s.m_funcs = [] →
      deliver s = some (.returned { s with posted := 0, m_processing := false }) := by
    intro hq
    simp only [deliver, if_neg hpos]
    rw [on_sendEvent_nil _ (by simpa using hp) (by simpa using hq)]
    simp [hp1]
  have hcons : ∀ f rest, s.m_funcs = f :: rest →
      deliver s = some (.returned
        { afterCallback { s with posted := s.posted - 1 } f rest with posted := 1 }) := by
    intro f rest hq
    have hf : f.body.noRaise = true := hs.2.2 f (by simp [hq])
    have hr := raises_of_noRaise _ hf
    simp only [deliver, if_neg hpos]
    rw [on_sendEvent_cons _ f rest (by simpa using hp) (by simpa using hq)]
    simp [hr, afterCallback, hp1]
  refine ⟨hp, ?_, hnil, ?_⟩
  · have hcases : s.m_funcs = [] ∨ ∃ f rest, s.m_funcs = f :: rest := by
      cases s.m_funcs with
      | nil => exact Or.inl rfl
      | cons f rest => exact Or.inr ⟨f, rest, rfl⟩
    rcases hcases with hq | ⟨f, rest, hq⟩
    · rw [hnil hq]
      simp
    · rw [hcons f rest hq]
      simp
  · intro f rest hq
    exact ⟨_, hcons f rest hq, rfl, rfl, rfl, hp⟩

/-- Witness of C18: the scenario of C1 after one drain step. -/
theorem drain_step_in_draining_witness :
    run (fifoScenario ++ [Event.drain]) QUaSignaler.new =
        some ⟨true, [⟨2, .ret⟩, ⟨3, .ret⟩, ⟨4, .ret⟩], 1, [1], [1, 2, 3, 4]⟩ ∧
      deliver ⟨true, [⟨2, .ret⟩, ⟨3, .ret⟩, ⟨4, .ret⟩], 1, [1], [1, 2, 3, 4]⟩ ≠
        some .assertFailed :=
  ⟨rfl, (drain_step_in_draining (fifoScenario ++ [Event.drain])
    ⟨true, [⟨2, .ret⟩, ⟨3, .ret⟩, ⟨4, .ret⟩], 1, [1], [1, 2, 3, 4]⟩
    (by decide) rfl (by decide)).2.1⟩

/-! ### QUaReferenceType and QUaChangeStructureDataType: equality and hash -/

theorem char_toNat_inj (c d : Char) (h : c.toNat = d.toNat) : c = d :=
  Char.eq_of_val_eq (UInt32.ext h)

/-- The comparison returns 0 exactly on strings with the same keys. -/
theorem compareBy_eq_zero (key : Char → Char) (s1 s2 : QString) :
    compareBy key s1 s2 = 0 ↔ s1.map key = s2.map key := by
  induction s1 generalizing s2 with
  | nil =>
    cases s2 with
    | nil => simp [compareBy]
    | cons y ys => simp [compareBy]
  | cons x xs ih =>
    cases s2 with
    | nil => simp [compareBy]
    | cons y ys =>
      by_cases hxy : key x = key y
      · simp [compareBy, hxy, ih]
      · have hne : ((key x).toNat : Int) - ((key y).toNat : Int) ≠ 0 := by
          intro h0
          have : (key x).toNat = (key y).toNat := by omega
          exact hxy (char_toNat_inj _ _ this)
        simp [compareBy, hxy, hne]

theorem compareCaseSensitive_eq_zero (s1 s2 : QString) :
    compareCaseSensitive s1 s2 = 0 ↔ s1 = s2 := by
  simp [compareCaseSensitive, compareBy_eq_zero]

theorem refType_operator_eq_iff (a b : QUaReferenceType) :
    a.operator_eq b = true ↔
      a.strForwardName = b.strForwardName ∧ a.strInverseName = b.strInverseName := by
  simp [QUaReferenceType.operator_eq, compareCaseSensitive_eq_zero]

/-- C13: `operator==` on change notifications is true exactly when the
affected identifiers are equal ignoring letter case, the affected type
identifiers are equal ignoring letter case, and the verb masks are equal;
notifications that differ in the verb mask are unequal, for example the
single verb NodeAdded against the compound mask NodeAdded | ReferenceAdded. -/
theorem changeNotification_operator_eq_iff (toCaseFolded : Char → Char)
    (a b : QUaChangeStructureDataType) :
    (QUaChangeStructureDataType.operator_eq toCaseFolded a b = true ↔
      equalIgnoringCase toCaseFolded a.m_strNodeIdAffected b.m_strNodeIdAffected ∧
      equalIgnoringCase toCaseFolded a.m_strNodeIdAffectedType b.m_strNodeIdAffectedType ∧
      a.m_uiVerb = b.m_uiVerb) ∧
    (a.m_uiVerb ≠ b.m_uiVerb →
      QUaChangeStructureDataType.operator_eq toCaseFolded a b = false) ∧
    QUaChangeStructureDataType.operator_eq toCaseFolded
      ⟨a.m_strNodeIdAffected, a.m_strNodeIdAffectedType, Verb.NodeAdded.toNat⟩
      ⟨a.m_strNodeIdAffected, a.m_strNodeIdAffectedType,
        Verb.NodeAdded.toNat ||| Verb.ReferenceAdded.toNat⟩ = false ∧
    QUaChangeStructureDataType.operator_eq Char.toLower
      ⟨['N', 's', '1'], ['T', 'y', 'p', 'e'], 1⟩ ⟨['n', 'S', '1'], ['t', 'Y', 'P', 'E'], 1⟩ =
        true := by
  have key : ∀ x y : QUaChangeStructureDataType,
      QUaChangeStructureDataType.operator_eq toCaseFolded x y = true ↔
      equalIgnoringCase toCaseFolded x.m_strNodeIdAffected y.m_strNodeIdAffected ∧
      equalIgnoringCase toCaseFolded x.m_strNodeIdAffectedType y.m_strNodeIdAffectedType ∧
      x.m_uiVerb = y.m_uiVerb := by
    intro x y
    simp [QUaChangeStructureDataType.operator_eq, compareCaseInsensitive,
      compareBy_eq_zero, equalIgnoringCase, and_assoc]
  have hne : ∀ x y : QUaChangeStructureDataType, x.m_uiVerb ≠ y.m_uiVerb →
      QUaChangeStructureDataType.operator_eq toCaseFolded x y = false := by
    intro x y hv
    rw [← Bool.not_eq_true, key]
    exact fun h => hv h.2.2
  refine ⟨key a b, hne a b, ?_, by decide⟩
  exact hne _ _ (show Verb.NodeAdded.toNat ≠ Verb.NodeAdded.toNat ||| Verb.ReferenceAdded.toNat by
    decide)

/-- C14: `operator==` on reference types is true exactly when the forward
names are identical and the inverse names are identical, character for
character (names that differ only in letter case are unequal), and
`operator!=` is its negation. -/
theorem refType_operator_eq_ne (a b : QUaReferenceType) :
    (a.operator_eq b = true ↔
      a.strForwardName = b.strForwardName ∧ a.strInverseName = b.strInverseName) ∧
    a.operator_ne b = !(a.operator_eq b) ∧
    (a.operator_ne b = true ↔ a.operator_eq b = false) ∧
    QUaReferenceType.operator_eq ⟨['H', 'a', 's'], ['O', 'f']⟩ ⟨['h', 'a', 's'], ['O', 'f']⟩ =
      false := by
  refine ⟨refType_operator_eq_iff a b, rfl, ?_, by decide⟩
  simp [QUaReferenceType.operator_ne]

/-- C15, as stated, fails: the reference type with forward name `a` and
inverse name `b` is not equal to the one with forward name `b` and inverse
name `a`. -/
theorem refType_swapped_not_equal :
    QUaReferenceType.operator_eq ⟨['a'], ['b']⟩ ⟨['b'], ['a']⟩ = false ∧
    QUaReferenceType.operator_ne ⟨['a'], ['b']⟩ ⟨['b'], ['a']⟩ = true := by
  decide

/-- C15, amended: equality of reference types is sensitive to the order of
the name pair; the reference type with names (x, y) equals the one with
names (y, x) exactly when x and y are the same text. -/
theorem refType_swapped_eq_iff (x y : QString) :
    QUaReferenceType.operator_eq ⟨x, y⟩ ⟨y, x⟩ = true ↔ x = y := by
  rw [refType_operator_eq_iff]
  constructor
  · exact fun h => h.1
  · exact fun h => ⟨h, h.symm⟩

/-- C20: reference types that `operator==` holds equal have the same `qHash`
for every seed, the hash being the XOR of the hashes of the forward and of
the inverse name, whatever the string hash is. -/
theorem refType_qHash_agrees (H : HashFns) (seed : Nat) (a b : QUaReferenceType)
    (h : a.operator_eq b = true) :
    QUaReferenceType.qHash H a seed = QUaReferenceType.qHash H b seed ∧
    QUaReferenceType.qHash H a seed =
      H.qHash_QString a.strForwardName seed ^^^ H.qHash_QString a.strInverseName seed := by
  obtain ⟨h1, h2⟩ := (refType_operator_eq_iff a b).1 h
  refine ⟨?_, rfl⟩
  simp [QUaReferenceType.qHash, h1, h2]

/-- Witness of C20: two copies of the pair (`Has`, `Of`). -/
theorem refType_qHash_agrees_witness :
    QUaReferenceType.operator_eq ⟨['H', 'a', 's'], ['O', 'f']⟩ ⟨['H', 'a', 's'], ['O', 'f']⟩ =
        true ∧
      QUaReferenceType.qHash sampleHashFns ⟨['H', 'a', 's'], ['O', 'f']⟩ 7 =
        QUaReferenceType.qHash sampleHashFns ⟨['H', 'a', 's'], ['O', 'f']⟩ 7 :=
  ⟨by decide, (refType_qHash_agrees sampleHashFns 7 ⟨['H', 'a', 's'], ['O', 'f']⟩
    ⟨['H', 'a', 's'], ['O', 'f']⟩ (by decide)).1⟩

/-! ### QUa::Type names and status severity -/

/-- C16: for every kind of `QUa::Type` other than the Unknown sentinel, the
kind constructed from the kind's canonical name is the kind itself; the 24
known kinds (and the sentinel) have pairwise distinct names and pairwise
distinct values, and a name of no kind resolves to Unknown. -/
theorem kindOf_nameOf (k : QUa_Type) (hk : k ≠ .UnknownType) :
    kindOf (nameOf k) = k ∧
    nameOf k = typeKey k ∧
    (allTypes.filter (fun t => t ≠ .UnknownType)).length = 24 ∧
    (allTypes.map typeKey).Nodup ∧
    (allTypes.map typeValue).Nodup ∧
    kindOf ['N', 'o', 'n', 'e'] = .UnknownType := by
  refine ⟨?_, ?_, by decide, by decide, by decide, by decide⟩
  · cases k <;> first | exact absurd rfl hk | decide
  · cases k <;> decide

/-- Witness of C16: the kind LocalizedText. -/
theorem kindOf_nameOf_witness :
    kindOf (nameOf .LocalizedText) = .LocalizedText :=
  (kindOf_nameOf .LocalizedText (by decide)).1

/-- The band of a 32-bit code, read off the quotient by 2^30. -/
theorem severity_of_quotient (a : Nat) (ha : a < 2 ^ 32) :
    severity a =
      (if a / 2 ^ 30 = 0 then some Severity.Good
       else if a / 2 ^ 30 = 1 then some Severity.Uncertain
       else if a / 2 ^ 30 = 2 then some Severity.Bad
       else none) := by
  have hq : a / 2 ^ 30 < 4 := by
    apply Nat.div_lt_of_lt_mul
    simpa using ha
  have e31 : a.testBit 31 = (a / 2 ^ 30).testBit 1 := by
    rw [← Nat.shiftRight_eq_div_pow, Nat.testBit_shiftRight]
  have e30 : a.testBit 30 = (a / 2 ^ 30).testBit 0 := by
    rw [← Nat.shiftRight_eq_div_pow, Nat.testBit_shiftRight]
  unfold severity
  rw [e31, e30]
  generalize a / 2 ^ 30 = q at hq
  interval_cases q <;> rfl

/-- C17: the severity band depends on the two most significant bits only.
Two 32-bit codes with the same top two bits have the same severity; the band
is Good, Uncertain or Bad exactly when the top two bits are 00, 01 or 10; and
the base values `Good` (0x00000000), `Uncertain` (0x40000000) and `Bad`
(0x80000000) of `QUa::Status` classify as Good, Uncertain and Bad. -/
theorem severity_top_two_bits (a b : Nat) (ha : a < 2 ^ 32) (hb : b < 2 ^ 32)
    (h : a / 2 ^ 30 = b / 2 ^ 30) :
    severity a = severity b ∧
    (severity a = some .Good ↔ a / 2 ^ 30 = 0) ∧
    (severity a = some .Uncertain ↔ a / 2 ^ 30 = 1) ∧
    (severity a = some .Bad ↔ a / 2 ^ 30 = 2) ∧
    static_cast_uint Status_Good = 0x00000000 ∧
    static_cast_uint Status_Uncertain = 0x40000000 ∧
    static_cast_uint Status_Bad = 0x80000000 ∧
    severity (static_cast_uint Status_Good) = some .Good ∧
    severity (static_cast_uint Status_Uncertain) = some .Uncertain ∧
    severity (static_cast_uint Status_Bad) = some .Bad := by
  have hq : a / 2 ^ 30 < 4 := by
    apply Nat.div_lt_of_lt_mul
    simpa using ha
  have sa := severity_of_quotient a ha
  have sb := severity_of_quotient b hb
  refine ⟨by rw [sa, sb, h], ?_, ?_, ?_, by decide, by decide, by decide,
    by decide, by decide, by decide⟩
  all_goals
    rw [sa]
    generalize a / 2 ^ 30 = q at hq
    interval_cases q <;> simp

/-- Witness of C17: two Bad codes with different sub-codes. -/
theorem severity_top_two_bits_witness :
    (0x80890000 : Nat) / 2 ^ 30 = 0x808A0000 / 2 ^ 30 ∧
      severity 0x80890000 = severity 0x808A0000 :=
  ⟨by decide, (severity_top_two_bits 0x80890000 0x808A0000 (by decide) (by decide)
    (by decide)).1⟩

/-! ### QUaWriteMask and QUaAccessLevel: writing one flag -/

theorem readBit_writeBit_high (width w k j : Nat) (b : Bool) (hk : k < width)
    (hj : width ≤ j) : readBit (writeBit width w k b) j = false := by
  have hlt : ¬ j < width := by omega
  have hge : k ≤ j := by omega
  have h1 : j - k ≠ 0 := by omega
  have h2 : (1 : Nat).testBit (j - k) = false := by
    rw [Bool.eq_false_iff]
    exact fun h => h1 (Nat.testBit_one_eq_true_iff_self_eq_zero.1 h)
  simp only [readBit, writeBit, Nat.testBit_or, Nat.testBit_and, Nat.testBit_xor,
    Nat.testBit_two_pow_sub_one, Nat.testBit_shiftLeft]
  cases b <;> simp [hlt, hge, h2]

/-- Writing the one-bit field at `k` of a `width`-bit word `v` stores `b` at
bit `k` and leaves every other bit of `v` as it was. -/
theorem writeBit_frame (width v k j : Nat) (b : Bool) (hk : k < width) (hv : v < 2 ^ width) :
    readBit (writeBit width v k b) j = if j = k then b else v.testBit j := by
  by_cases hj : j < width
  · rw [readBit_writeBit width v k j b hk hj, readBit]
  · have hne : j ≠ k := by omega
    have hvj : v.testBit j = false :=
      Nat.testBit_lt_two_pow (Nat.lt_of_lt_of_le hv (Nat.pow_le_pow_right (by decide) (by omega)))
    rw [readBit_writeBit_high width v k j b hk (by omega), if_neg hne, hvj]

theorem writeMask_pos_lt (f : QUaWriteMask.bit_map) : f.pos < 32 := by
  cases f <;> decide

theorem writeMask_pos_inj (f g : QUaWriteMask.bit_map) (h : f.pos = g.pos) : f = g := by
  cases f <;> cases g <;> first | rfl | exact absurd h (by decide)

theorem accessLevel_pos_lt (f : QUaAccessLevel.bit_map) : f.pos < 8 := by
  cases f <;> decide

theorem accessLevel_pos_inj (f g : QUaAccessLevel.bit_map) (h : f.pos = g.pos) : f = g := by
  cases f <;> cases g <;> first | rfl | exact absurd h (by decide)

/-- C21: writing one named flag changes only that flag's bit. On the
`QUaWriteMask` built from a 32-bit `v`, after `bits.f = b` the bit of `f` in
the raw value is `b` and every other bit of the raw value is that of `v`, so
`f` reads `b` and every other named flag reads as before; the same holds for
a named flag `g` of the `QUaAccessLevel` built from an 8-bit `w`. -/
theorem setBits_frame (v w : Nat) (f : QUaWriteMask.bit_map) (g : QUaAccessLevel.bit_map)
    (b : Bool) (hv : v < 2 ^ 32) (hw : w < 2 ^ 8) :
    (readBit ((QUaWriteMask.ofValue v).setBits f b).intValue f.pos = b ∧
     (∀ j, j ≠ f.pos →
        readBit ((QUaWriteMask.ofValue v).setBits f b).intValue j = v.testBit j) ∧
     ((QUaWriteMask.ofValue v).setBits f b).bits f = b ∧
     (∀ f2, f2 ≠ f →
        ((QUaWriteMask.ofValue v).setBits f b).bits f2 = (QUaWriteMask.ofValue v).bits f2)) ∧
    (readBit ((QUaAccessLevel.ofValue w).setBits g b).intValue g.pos = b ∧
     (∀ j, j ≠ g.pos →
        readBit ((QUaAccessLevel.ofValue w).setBits g b).intValue j = w.testBit j) ∧
     ((QUaAccessLevel.ofValue w).setBits g b).bits g = b ∧
     (∀ g2, g2 ≠ g →
        ((QUaAccessLevel.ofValue w).setBits g b).bits g2 =
          (QUaAccessLevel.ofValue w).bits g2)) := by
  have h1 : (QUaWriteMask.ofValue v).intValue = v := Nat.mod_eq_of_lt hv
  have h2 : (QUaAccessLevel.ofValue w).intValue = w := Nat.mod_eq_of_lt hw
  have hf : ∀ j, readBit ((QUaWriteMask.ofValue v).setBits f b).intValue j =
      if j = f.pos then b else v.testBit j := by
    intro j
    simp only [QUaWriteMask.setBits, h1]
    exact writeBit_frame 32 v f.pos j b (writeMask_pos_lt f) hv
  have hg : ∀ j, readBit ((QUaAccessLevel.ofValue w).setBits g b).intValue j =
      if j = g.pos then b else w.testBit j := by
    intro j
    simp only [QUaAccessLevel.setBits, h2]
    exact writeBit_frame 8 w g.pos j b (accessLevel_pos_lt g) hw
  refine ⟨⟨?_, ?_, ?_, ?_⟩, ⟨?_, ?_, ?_, ?_⟩⟩
  · rw [hf, if_pos rfl]
  · intro j hj
    rw [hf, if_neg hj]
  · rw [QUaWriteMask.bits, hf, if_pos rfl]
  · intro f2 hne
    have hp : f2.pos ≠ f.pos := fun h => hne (writeMask_pos_inj f2 f h)
    rw [QUaWriteMask.bits, hf, if_neg hp, QUaWriteMask.bits, h1, readBit]
  · rw [hg, if_pos rfl]
  · intro j hj
    rw [hg, if_neg hj]
  · rw [QUaAccessLevel.bits, hg, if_pos rfl]
  · intro g2 hne
    have hp : g2.pos ≠ g.pos := fun h => hne (accessLevel_pos_inj g2 g h)
    rw [QUaAccessLevel.bits, hg, if_neg hp, QUaAccessLevel.bits, h2, readBit]

/-- Witness of C21: clearing `bNodeId` in 0xFFC04001 and `bWrite` in 0x83. -/
theorem setBits_frame_witness :
    ((QUaWriteMask.ofValue 0xFFC04001).setBits .bNodeId false).intValue = 0xFFC00001 ∧
    ((QUaAccessLevel.ofValue 0x83).setBits .bWrite false).intValue = 0x81 ∧
    readBit ((QUaWriteMask.ofValue 0xFFC04001).setBits .bNodeId false).intValue
      QUaWriteMask.bit_map.bNodeId.pos = false :=
  ⟨by decide, by decide,
   (setBits_frame 0xFFC04001 0x83 .bNodeId .bWrite false (by decide) (by decide)).1.1⟩

end QUaServer
